import Mathlib

/-!
# Variant-description core: shallow embedding and verification

Embedding of the variant-change detector, the variant text formatter and the
HTML bullet-point patcher of the description-generator repository.

* `updateVariantsBulletPoint` embeds the patcher of the Shopify service
  (`updateVariantsBulletPoint` in the service class): JavaScript strings are
  modelled as `List Char`, and the three regex operations it performs
  (`replace(/<li>\s*<strong>Available Variants:<\/strong>.*?<\/li>\s*/g, '')`,
  `replace(/<li>\s*<strong>Available Variants:<\/strong>.*?<\/li>/g, bullet)`
  and `replace(/(<ul>)/, '$1\n  ' + bullet)`) are modelled by an explicit
  left-to-right scanner with the exact semantics of those patterns:
  `\s` is the JS whitespace class, `.` does not match line terminators and
  `.*?` is lazy, `\s*` is greedy, and replacement strings undergo the
  ECMAScript `GetSubstitution` treatment of `$$`/`$&`/`` $` ``/`$'`/`$n`.
* `detectVariantChanges` and `formatVariantsForDescription` embed the two
  core functions of `src/utils/variantParser.js`; possibly-absent JavaScript
  fields are `Option`s, `x || []` becomes `Option.getD`, and the `try/catch`
  of each function is an explicit `Except` body plus a total wrapper.
  The human-readable `details` strings are rendered exactly as in the source.
-/

/-- JavaScript strings, modelled as lists of characters. -/
abbrev Str := List Char

/-- The JS whitespace class `\s` (also the set trimmed by `String.prototype.trim`):
space, tab, LF, VT, FF, CR, NBSP, and the Unicode space separators. -/
def isJsSpace (c : Char) : Bool :=
  c = ' ' || c = '\t' || c = '\n' || c = '\x0b' || c = '\x0c' || c = '\r' ||
  c = Char.ofNat 0xA0 || c = Char.ofNat 0x1680 ||
  (0x2000 ≤ c.toNat && c.toNat ≤ 0x200A) ||
  c = Char.ofNat 0x2028 || c = Char.ofNat 0x2029 || c = Char.ofNat 0x202F ||
  c = Char.ofNat 0x205F || c = Char.ofNat 0x3000 || c = Char.ofNat 0xFEFF

/-- JS line terminators, which `.` (without the `s` flag) does not match. -/
def isLineTerm (c : Char) : Bool :=
  c = '\n' || c = '\r' || c = Char.ofNat 0x2028 || c = Char.ofNat 0x2029

/-- The literal bold label the patcher's patterns look for. -/
def label : Str := "<strong>Available Variants:</strong>".data

/-- The list-item opening tag literal of the patterns. -/
def liOpen : Str := "<li>".data

/-- The list-item closing tag literal of the patterns. -/
def liClose : Str := "</li>".data

/-- The unordered-list opening tag of the insertion pattern `(<ul>)`. -/
def ulOpen : Str := "<ul>".data

/-- Match a literal at the head of the input, returning the rest. -/
def dropLit : Str → Str → Option Str
  | [], l => some l
  | _ :: _, [] => none
  | c :: cs, x :: xs => if x = c then dropLit cs xs else none

/-- The lazy `.*?<\/li>` tail of the bullet patterns: consume the shortest
non-line-terminator run up to and including the first `</li>`.  Returns the
consumed part (including `</li>`) and the rest; `none` when a line terminator
or the end of input comes first. -/
def scanToClose : Str → Option (Str × Str)
  | [] => none
  | c :: t =>
    if liClose.isPrefixOf (c :: t) then some (liClose, (c :: t).drop 5)
    else if isLineTerm c then none
    else
      match scanToClose t with
      | some (m, r) => some (c :: m, r)
      | none => none

/-- One attempt of `/<li>\s*<strong>Available Variants:<\/strong>.*?<\/li>/`
at the head of the input: `some (matched, rest)` on success. -/
def matchBullet (l : Str) : Option (Str × Str) :=
  match dropLit liOpen l with
  | none => none
  | some r1 =>
    let ws := r1.takeWhile isJsSpace
    match dropLit label (r1.dropWhile isJsSpace) with
    | none => none
    | some r3 =>
      match scanToClose r3 with
      | none => none
      | some (body, r4) => some (liOpen ++ ws ++ label ++ body, r4)

/-- One attempt of the removal pattern, which additionally consumes the
greedy trailing `\s*` after `</li>`. -/
def matchBulletR (l : Str) : Option (Str × Str) :=
  match matchBullet l with
  | none => none
  | some (m, r) => some (m ++ r.takeWhile isJsSpace, r.dropWhile isJsSpace)

/-- ECMAScript `GetSubstitution`: expand `$$`, `$&`, `` $` ``, `$'` and
`$n`/`$nn` in a replacement template.  `matched` is the matched substring,
`before`/`after` the parts of the subject string around the match, and
`groups` the capture groups of the pattern. -/
def jsSubst (matched before after : Str) (groups : List Str) : Str → Str
  | [] => []
  | [c] => [c]
  | c :: d :: t =>
    if c ≠ '$' then c :: jsSubst matched before after groups (d :: t)
    else if d = '$' then '$' :: jsSubst matched before after groups t
    else if d = '&' then matched ++ jsSubst matched before after groups t
    else if d = Char.ofNat 96 then before ++ jsSubst matched before after groups t
    else if d = Char.ofNat 39 then after ++ jsSubst matched before after groups t
    else if d.isDigit then
      match t with
      | d2 :: t2 =>
        if d2.isDigit then
          let nn := (d.toNat - 48) * 10 + (d2.toNat - 48)
          if 1 ≤ nn ∧ nn ≤ groups.length then
            (groups.getD (nn - 1) []) ++ jsSubst matched before after groups t2
          else '$' :: d :: d2 :: jsSubst matched before after groups t2
        else
          let n := d.toNat - 48
          if 1 ≤ n ∧ n ≤ groups.length then
            (groups.getD (n - 1) []) ++ jsSubst matched before after groups (d2 :: t2)
          else '$' :: d :: jsSubst matched before after groups (d2 :: t2)
      | [] =>
        let n := d.toNat - 48
        if 1 ≤ n ∧ n ≤ groups.length then groups.getD (n - 1) [] else ['$', d]
    else '$' :: d :: jsSubst matched before after groups t

/-- Left-to-right global replace, exactly as `String.prototype.replace` with a
`g`-flagged pattern: at each position try the matcher; on a match emit the
substituted replacement and continue after the match, otherwise emit the
character and move on.  `before` accumulates the part of the subject already
passed (needed by `` $` ``).  Structural fuel; `n = l.length + 1` suffices
because every match of our patterns is non-empty. -/
def replaceScanGo (mf : Str → Option (Str × Str)) (tmpl : Str)
    (groups : Str → List Str) : Nat → Str → Str → Str
  | 0, _, l => l
  | n + 1, before, l =>
    match mf l with
    | some (m, r) =>
      jsSubst m before r (groups m) tmpl ++ replaceScanGo mf tmpl groups n (before ++ m) r
    | none =>
      match l with
      | [] => []
      | c :: t => c :: replaceScanGo mf tmpl groups n (before ++ [c]) t

/-- Non-global replace of the first occurrence of `<ul>` (pattern `(<ul>)`,
one capture group, which is the matched text itself). -/
def insertScanGo (tmpl : Str) : Str → Str → Str
  | _, [] => []
  | before, c :: t =>
    if ulOpen.isPrefixOf (c :: t) then
      jsSubst ulOpen before ((c :: t).drop 4) [ulOpen] tmpl ++ (c :: t).drop 4
    else c :: insertScanGo tmpl (before ++ [c]) t

/-- `!formattedVariants || formattedVariants === 'Standard' ||
formattedVariants.trim() === ''` for a (non-null) string. -/
def sentinelSummary (s : Str) : Bool :=
  s.isEmpty || s = "Standard".data || s.all isJsSpace

/-- The canonical replacement bullet template
`` `<li>\n<strong>Available Variants:</strong> ${formattedVariants}</li>` ``. -/
def newVariantsBullet (s : Str) : Str :=
  "<li>\n<strong>Available Variants:</strong> ".data ++ s ++ "</li>".data

/-- `htmlDescription.replace(/<li>\s*<strong>Available Variants:<\/strong>.*?<\/li>\s*/g, '')`. -/
def removeAllBullets (html : Str) : Str :=
  replaceScanGo matchBulletR [] (fun _ => []) (html.length + 1) [] html

/-- `htmlDescription.replace(/<li>\s*<strong>Available Variants:<\/strong>.*?<\/li>/g, newVariantsBullet)`. -/
def replaceAllBullets (s html : Str) : Str :=
  replaceScanGo matchBullet (newVariantsBullet s) (fun _ => []) (html.length + 1) [] html

/-- `htmlDescription.replace(/(<ul>)/, `$1\n  ${newVariantsBullet}`)`. -/
def insertBullet (s html : Str) : Str :=
  insertScanGo ("$1\n  ".data ++ newVariantsBullet s) [] html

/-- `String.prototype.includes`: does `pat` occur as a contiguous substring? -/
def containsSeq (pat : Str) : Str → Bool
  | [] => pat.isEmpty
  | c :: t => pat.isPrefixOf (c :: t) || containsSeq pat t

/-- The patcher `updateVariantsBulletPoint(htmlDescription, formattedVariants)`
on (non-null) string inputs, on which none of its steps can throw. -/
def updateVariantsBulletPoint (html s : Str) : Str :=
  if sentinelSummary s then removeAllBullets html
  else if containsSeq label html then replaceAllBullets s html
  else insertBullet s html

/-- A JS value that is either a string or `null`/`undefined`, for the
error-policy analysis of the patcher and the comparator. -/
inductive JsStr where
  | null : JsStr
  | str : Str → JsStr
deriving DecidableEq

/-- The JS truthiness/`'Standard'`/`trim` test of the patcher's first branch:
`null` and `undefined` are falsy, so they select the removal branch. -/
def sentinelJs : JsStr → Bool
  | .null => true
  | .str s => sentinelSummary s

/-- The body of `updateVariantsBulletPoint` before its `catch`: an exception
(modelled as `Except.error` with the engine's message) is raised exactly when
a method is invoked on a `null` document. -/
def updateBody (html s : JsStr) : Except Str JsStr :=
  if sentinelJs s then
    match html with
    | .null => .error "Cannot read properties of null (reading 'replace')".data
    | .str h => .ok (.str (removeAllBullets h))
  else
    match html with
    | .null => .error "Cannot read properties of null (reading 'includes')".data
    | .str h =>
      match s with
      | .null => .ok (.str h)
      | .str sv =>
        .ok (.str (if containsSeq label h then replaceAllBullets sv h else insertBullet sv h))

/-- The full patcher with its `try/catch`: any exception is swallowed and the
original first argument is returned unchanged. -/
def updateVariantsBulletPointJs (html s : JsStr) : JsStr :=
  match updateBody html s with
  | .ok r => r
  | .error _ => html

/-- Number of positions at which the bold label occurs (a document contains
exactly one "Available Variants" bullet iff this count is 1). -/
def countLabel : Str → Nat
  | [] => 0
  | c :: t => (if label.isPrefixOf (c :: t) then 1 else 0) + countLabel t

/-! ## Variant snapshots and the change detector (`src/utils/variantParser.js`) -/

/-- A Shopify variant row as consumed by the core logic; absent JS fields are
`none`.  `sku`, `price` and `inventoryQuantity` are carried in the snapshot
but never read by the detector or the formatter. -/
structure VariantRow where
  id : Option Str := none
  title : Option Str := none
  option1 : Option Str := none
  option2 : Option Str := none
  option3 : Option Str := none
  sku : Option Str := none
  price : Option Str := none
  inventoryQuantity : Option Str := none
deriving DecidableEq

/-- A product option definition (`{ name, values }`). -/
structure ProductOption where
  name : Option Str := none
  values : Option (List Str) := none
deriving DecidableEq

/-- A product snapshot as read by `detectVariantChanges`: only the `variants`
and `options` fields are accessed (`product.variants || []`,
`product.options || []`). -/
structure Product where
  variants : Option (List VariantRow) := none
  options : Option (List ProductOption) := none
deriving DecidableEq

/-- The `changeType` strings of the detector's result object. -/
inductive ChangeType where
  | variant_count | option_count | option_name | option_values_count
  | option_value | variant_options | variant_title | error
deriving DecidableEq

/-- The result object of `detectVariantChanges`; fields absent from a given
return site are `none`.  `oldVariant`/`newVariant` hold the titles reported in
the `variant_options` case, exactly as in the source. -/
structure ChangeResult where
  hasChanges : Bool
  changeType : Option ChangeType := none
  oldCount : Option Nat := none
  newCount : Option Nat := none
  optionName : Option (Option Str) := none
  oldValue : Option (Option Str) := none
  newValue : Option (Option Str) := none
  variantIndex : Option Nat := none
  oldVariant : Option (Option Str) := none
  newVariant : Option (Option Str) := none
  details : Str := []
deriving DecidableEq

/-- Template interpolation of a possibly-undefined JS string. -/
def showOpt : Option Str → Str
  | none => "undefined".data
  | some s => s

/-- Template interpolation of a number. -/
def natStr (n : Nat) : Str := (toString n).data

/-- The inner `for j` loop over one option's value lists (lengths already
known to be equal at the call site). -/
def cmpValues (optName : Option Str) : List Str → List Str → Option ChangeResult
  | ov :: os, nv :: ns =>
    if ov ≠ nv then
      some { hasChanges := true, changeType := some .option_value,
             optionName := some optName,
             oldValue := some (some ov), newValue := some (some nv),
             details := "Option \"".data ++ showOpt optName ++ "\" value changed from \"".data
               ++ ov ++ "\" to \"".data ++ nv ++ "\"".data }
    else cmpValues optName os ns
  | _, _ => none

/-- The `for i` loop over the (equal-length) option lists: per index, name,
then value-list length, then the values. -/
def cmpOptions : List ProductOption → List ProductOption → Option ChangeResult
  | o :: os, n :: ns =>
    if o.name ≠ n.name then
      some { hasChanges := true, changeType := some .option_name,
             oldValue := some o.name, newValue := some n.name,
             details := "Option name changed from \"".data ++ showOpt o.name
               ++ "\" to \"".data ++ showOpt n.name ++ "\"".data }
    else
      let ov := o.values.getD []
      let nv := n.values.getD []
      if ov.length ≠ nv.length then
        some { hasChanges := true, changeType := some .option_values_count,
               optionName := some o.name,
               oldCount := some ov.length, newCount := some nv.length,
               details := "Option \"".data ++ showOpt o.name
                 ++ "\" values count changed from ".data ++ natStr ov.length
                 ++ " to ".data ++ natStr nv.length }
      else
        match cmpValues o.name ov nv with
        | some r => some r
        | none => cmpOptions os ns
  | _, _ => none

/-- The `for i` loop over the (equal-length) variant lists: per index, the
three positional slots, then the title. -/
def cmpVariants : Nat → List VariantRow → List VariantRow → Option ChangeResult
  | i, o :: os, n :: ns =>
    if o.option1 ≠ n.option1 ∨ o.option2 ≠ n.option2 ∨ o.option3 ≠ n.option3 then
      some { hasChanges := true, changeType := some .variant_options,
             variantIndex := some i,
             oldVariant := some o.title, newVariant := some n.title,
             details := "Variant options changed from \"".data ++ showOpt o.title
               ++ "\" to \"".data ++ showOpt n.title ++ "\"".data }
    else if o.title ≠ n.title then
      some { hasChanges := true, changeType := some .variant_title,
             variantIndex := some i,
             oldValue := some o.title, newValue := some n.title,
             details := "Variant title changed from \"".data ++ showOpt o.title
               ++ "\" to \"".data ++ showOpt n.title ++ "\"".data }
    else cmpVariants (i + 1) os ns
  | _, _, _ => none

/-- The body of `detectVariantChanges` before its `catch`: dereferencing a
`null`/`undefined` snapshot raises (`.variants` is the first field read). -/
def detectBody : Option Product → Option Product → Except Str ChangeResult
  | none, _ => .error "Cannot read properties of null (reading 'variants')".data
  | some _, none => .error "Cannot read properties of null (reading 'variants')".data
  | some op, some np =>
    let oldVariants := op.variants.getD []
    let newVariants := np.variants.getD []
    let oldOptions := op.options.getD []
    let newOptions := np.options.getD []
    if oldVariants.length ≠ newVariants.length then
      .ok { hasChanges := true, changeType := some .variant_count,
            oldCount := some oldVariants.length, newCount := some newVariants.length,
            details := "Variant count changed from ".data ++ natStr oldVariants.length
              ++ " to ".data ++ natStr newVariants.length }
    else if oldOptions.length ≠ newOptions.length then
      .ok { hasChanges := true, changeType := some .option_count,
            oldCount := some oldOptions.length, newCount := some newOptions.length,
            details := "Option count changed from ".data ++ natStr oldOptions.length
              ++ " to ".data ++ natStr newOptions.length }
    else
      match cmpOptions oldOptions newOptions with
      | some r => .ok r
      | none =>
        match cmpVariants 0 oldVariants newVariants with
        | some r => .ok r
        | none => .ok { hasChanges := false, details := "No variant changes detected".data }

/-- `detectVariantChanges(oldProduct, newProduct)` with its `catch`: any
exception is converted to a fail-open `hasChanges=true, changeType='error'`
result. -/
def detectVariantChanges (o n : Option Product) : ChangeResult :=
  match detectBody o n with
  | .ok r => r
  | .error m =>
    { hasChanges := true, changeType := some .error,
      details := "Error detecting changes: ".data ++ m }

/-! ## The formatter `formatVariantsForDescription(variants, options)` -/

/-- `variant[`option${index+1}`]` for a 0-based index. -/
def slotOf (v : VariantRow) : Nat → Option Str
  | 0 => v.option1
  | 1 => v.option2
  | 2 => v.option3
  | _ => none

/-- The `optionNames.forEach((optionName, index) => ...)` accumulation of
truthy `"OptionName: value"` pairs. -/
def buildPairsGo (v : VariantRow) : Nat → List (Option Str) → List Str
  | _, [] => []
  | i, nm :: rest =>
    match slotOf v i with
    | some val =>
      if val.isEmpty then buildPairsGo v (i + 1) rest
      else (showOpt nm ++ ": ".data ++ val) :: buildPairsGo v (i + 1) rest
    | none => buildPairsGo v (i + 1) rest

/-- `formatVariantsForDescription`: `'Standard'` for an absent/empty variant
list; otherwise per-variant pairs joined with `", "`, falling back to
`variant.title || 'Standard'`, variants joined with `"; "`. -/
def formatVariantsForDescription (variants : Option (List VariantRow))
    (options : Option (List ProductOption)) : Str :=
  match variants with
  | none => "Standard".data
  | some vs =>
    if vs.isEmpty then "Standard".data
    else
      let optionNames := match options with
        | none => []
        | some os => os.map (fun o => o.name)
      let formatted := vs.map (fun v =>
        let pairs := buildPairsGo v 0 optionNames
        if pairs.isEmpty then
          match v.title with
          | none => "Standard".data
          | some t => if t.isEmpty then "Standard".data else t
        else List.intercalate ", ".data pairs)
      List.intercalate "; ".data formatted

/-! ## Spec-side definitions

Definitions in this section follow the specification's wording and are used
to state the claims; they are deliberately structured differently from the
embedded source functions above, and the theorems below relate the two. -/

/-- The positional slot sequence of a variant row, in the spec's words:
"slot k holds the value for the k-th option definition". -/
def specSlots (v : VariantRow) : List (Option Str) := [v.option1, v.option2, v.option3]

/-- Spec formatter pairs: walk the option definitions in order, pairing each
with the correspondingly-positioned slot; pairs whose slot value is absent or
empty are skipped entirely. -/
def specPairs : List ProductOption → List (Option Str) → List Str
  | [], _ => []
  | _ :: _, [] => []
  | o :: os, sl :: sls =>
    match sl with
    | some val =>
      if val = [] then specPairs os sls
      else (showOpt o.name ++ ": ".data ++ val) :: specPairs os sls
    | none => specPairs os sls

/-- Spec formatter, per variant: the comma-joined pairs, or the variant's own
title, or `"Standard"` when the title itself is empty. -/
def specVariantText (opts : List ProductOption) (v : VariantRow) : Str :=
  let pairs := specPairs opts (specSlots v)
  if pairs = [] then (if v.title.getD [] = [] then "Standard".data else v.title.getD [])
  else List.intercalate ", ".data pairs

/-- Spec formatter: `"Standard"` for an empty variant list, else the
semicolon-joined per-variant strings. -/
def specFormat (variants : Option (List VariantRow))
    (options : Option (List ProductOption)) : Str :=
  let vs := variants.getD []
  if vs = [] then "Standard".data
  else List.intercalate "; ".data (vs.map (specVariantText (options.getD [])))

/-- Spec comparator, option walk: per index, option name, then value-list
length, then the values (any value differing). -/
def specOptionKind (os ns : List ProductOption) : Option ChangeType :=
  (os.zip ns).findSome? fun p =>
    if p.1.name ≠ p.2.name then some .option_name
    else if (p.1.values.getD []).length ≠ (p.2.values.getD []).length then
      some .option_values_count
    else if p.1.values.getD [] ≠ p.2.values.getD [] then some .option_value
    else none

/-- Spec comparator, variant walk: per index, the three positional slot
values, then the title. -/
def specVariantKind (vs ws : List VariantRow) : Option ChangeType :=
  (vs.zip ws).findSome? fun p =>
    if p.1.option1 ≠ p.2.option1 ∨ p.1.option2 ≠ p.2.option2 ∨ p.1.option3 ≠ p.2.option3 then
      some .variant_options
    else if p.1.title ≠ p.2.title then some .variant_title
    else none

/-- The first reported difference kind, in the order the comparator actually
checks: variant count, option count, then the interleaved per-index option
walk, then the variant walk; `none` when nothing differs. -/
def detectSpecKind (o n : Product) : Option ChangeType :=
  let ov := o.variants.getD []
  let nv := n.variants.getD []
  let oo := o.options.getD []
  let no2 := n.options.getD []
  if ov.length ≠ nv.length then some .variant_count
  else if oo.length ≠ no2.length then some .option_count
  else
    match specOptionKind oo no2 with
    | some k => some k
    | none => specVariantKind ov nv

/-- The difference kind under the claim's phased reading of the check order:
all per-index option names (phase 3) strictly before any value-list
comparison (phase 4). -/
def detectClaimKind (o n : Product) : Option ChangeType :=
  let ov := o.variants.getD []
  let nv := n.variants.getD []
  let oo := o.options.getD []
  let no2 := n.options.getD []
  if ov.length ≠ nv.length then some .variant_count
  else if oo.length ≠ no2.length then some .option_count
  else if (oo.zip no2).any (fun p => p.1.name ≠ p.2.name) then some .option_name
  else
    match (oo.zip no2).findSome? (fun p =>
      if (p.1.values.getD []).length ≠ (p.2.values.getD []).length then
        some ChangeType.option_values_count
      else if p.1.values.getD [] ≠ p.2.values.getD [] then some ChangeType.option_value
      else none) with
    | some k => some k
    | none => specVariantKind ov nv

/-- Agreement of two option definitions on everything the comparator reads. -/
def optAgree (a b : ProductOption) : Bool :=
  a.name = b.name && a.values.getD [] = b.values.getD []

/-- Agreement of two variant rows on the title and all three slots. -/
def rowAgree (a b : VariantRow) : Bool :=
  a.title = b.title && a.option1 = b.option1 && a.option2 = b.option2 && a.option3 = b.option3

/-- Pointwise agreement of equal-length lists. -/
def listAgree (f : α → α → Bool) : List α → List α → Bool
  | [], [] => true
  | a :: as2, b :: bs => f a b && listAgree f as2 bs
  | _, _ => false

/-- Equality of two variant rows outside the commercial fields: only `sku`,
`price` and `inventoryQuantity` may differ. -/
def coreEqVar (a b : VariantRow) : Bool :=
  a.id = b.id && a.title = b.title &&
  a.option1 = b.option1 && a.option2 = b.option2 && a.option3 = b.option3

/-- Lifted to the possibly-absent variant list of a snapshot. -/
def coreEqVariants : Option (List VariantRow) → Option (List VariantRow) → Bool
  | none, none => true
  | some a, some b => listAgree coreEqVar a b
  | _, _ => false

/-! ### Declarative characterization of the patcher's pattern -/

/-- A well-formed "Available Variants" list item as the patterns match it:
open tag, whitespace run, bold label, single-line lazy body, close tag. -/
def mkBullet (ws body : Str) : Str := liOpen ++ ws ++ label ++ body ++ liClose

/-- A string the bullet pattern matches in full: open tag, whitespace run,
bold label, single-line close-free body (laziness lands on the first close
tag), close tag. -/
def BulletMatch (m : Str) : Prop :=
  ∃ ws body, m = mkBullet ws body ∧ ws.all isJsSpace = true ∧
    body.all (fun c => !isLineTerm c) = true ∧ containsSeq liClose body = false

/-- Some bullet-pattern match begins at the head of `l`. -/
def BulletAt (l : Str) : Prop := ∃ m r, l = m ++ r ∧ BulletMatch m

/-- A removal-pattern match: a bullet plus the greedy trailing whitespace. -/
def RemMatch (m r : Str) : Prop :=
  ∃ m0 trail, m = m0 ++ trail ∧ BulletMatch m0 ∧
    trail.all isJsSpace = true ∧ (∀ c t, r = c :: t → isJsSpace c = false)

/-- Frame of the sentinel (removal) branch: the output deletes exactly
removal-pattern matches; every kept position starts no bullet match. -/
inductive RemovalFrame : Str → Str → Prop where
  | nil : RemovalFrame [] []
  | keep {c t out} : ¬ BulletAt (c :: t) → RemovalFrame t out → RemovalFrame (c :: t) (c :: out)
  | drop {m r out} : RemMatch m r → RemovalFrame r out → RemovalFrame (m ++ r) out

/-- Frame of the replacement branch: each bullet-pattern match is replaced by
some string, everything else is copied verbatim. -/
inductive ReplaceFrame : Str → Str → Prop where
  | nil : ReplaceFrame [] []
  | keep {c t out} : ¬ BulletAt (c :: t) → ReplaceFrame t out → ReplaceFrame (c :: t) (c :: out)
  | hit {m r out} (repl : Str) : BulletMatch m → ReplaceFrame r out →
      ReplaceFrame (m ++ r) (repl ++ out)

/-- Frame of the insertion branch: material is inserted directly after the
first `<ul>`, or nothing happens when there is none. -/
def InsertFrame (html out : Str) : Prop :=
  (∃ pre post ins, html = pre ++ ulOpen ++ post ∧ containsSeq ulOpen pre = false ∧
    out = pre ++ ulOpen ++ ins ++ post) ∨
  (containsSeq ulOpen html = false ∧ out = html)

/-- The frame property of one `patch` call, per branch actually taken. -/
def PatchFrame (html s out : Str) : Prop :=
  if sentinelSummary s then RemovalFrame html out
  else if containsSeq label html then ReplaceFrame html out
  else InsertFrame html out

/-! ### Structured documents: label occurrences only inside well-formed bullets -/

/-- One document segment: a gap followed by a bullet given as its whitespace
run and body. -/
abbrev Seg := Str × Str × Str

/-- Well-formedness of a segment: label-free gap, all-whitespace run,
single-line close-free body. -/
def segOK (p : Seg) : Bool :=
  !(containsSeq label p.1) && p.2.1.all isJsSpace &&
  p.2.2.all (fun c => !isLineTerm c) && !(containsSeq liClose p.2.2)

/-- The document assembled from segments (a final gap is appended outside). -/
def joinSegs (segs : List Seg) : Str :=
  (segs.map fun p => p.1 ++ mkBullet p.2.1 p.2.2).flatten

/-- The same segments with every bullet replaced by `B`. -/
def joinRepl (B : Str) (segs : List Seg) : Str :=
  (segs.map fun p => p.1 ++ B).flatten

/-- A summary the replacement machinery treats literally: no `$`, no line
terminators, no `</li>`. -/
def niceSummary (s : Str) : Bool :=
  s.all (fun c => c ≠ '$') && s.all (fun c => !isLineTerm c) && !(containsSeq liClose s)

/-- The number of (possibly overlapping) occurrences of `pat`: one count per
starting position at which `pat` occurs. -/
def countSeq (pat : Str) : Str → Nat
  | [] => 0
  | c :: t => (if pat.isPrefixOf (c :: t) then 1 else 0) + countSeq pat t

/-! ## Theorems -/

/-- On string inputs the `try/catch` wrapper of the patcher is invisible. -/
theorem updateJs_str (h s : Str) :
    updateVariantsBulletPointJs (.str h) (.str s) = .str (updateVariantsBulletPoint h s) := by
  unfold updateVariantsBulletPointJs updateBody updateVariantsBulletPoint sentinelJs
  by_cases hs : sentinelSummary s <;> simp [hs]

/-- C6: whenever the structural comparison raises, `detectVariantChanges`
swallows the exception and reports `hasChanges = true` with kind `error`
(fail-open), never propagating. -/
theorem detect_comparison_fault_fail_open (o n : Option Product) (m : Str)
    (h : detectBody o n = .error m) :
    detectVariantChanges o n =
      { hasChanges := true, changeType := some ChangeType.error,
        details := "Error detecting changes: ".data ++ m } := by
  unfold detectVariantChanges
  rw [h]

/-- Witness for C6: a `null` old snapshot makes the comparison body raise, and
the comparator reports the fail-open error result. -/
theorem detect_comparison_fault_fail_open_witness :
    detectBody none (some {}) =
      .error "Cannot read properties of null (reading 'variants')".data ∧
    detectVariantChanges none (some {}) =
      { hasChanges := true, changeType := some ChangeType.error,
        details := ("Error detecting changes: ".data
          ++ "Cannot read properties of null (reading 'variants')".data) } :=
  ⟨rfl, detect_comparison_fault_fail_open none (some {}) _ rfl⟩

/-- C7: whenever a patching step raises, `updateVariantsBulletPoint` swallows
the exception and returns the original first argument unchanged. -/
theorem patch_fault_returns_original (html s : JsStr) (e : Str)
    (h : updateBody html s = .error e) :
    updateVariantsBulletPointJs html s = html := by
  unfold updateVariantsBulletPointJs
  rw [h]

/-- Witness for C7: a `null` document makes the body raise on `includes`, and
the patcher returns the original value unchanged. -/
theorem patch_fault_returns_original_witness :
    updateBody JsStr.null (.str "Size: 2 mm".data) =
      .error "Cannot read properties of null (reading 'includes')".data ∧
    updateVariantsBulletPointJs JsStr.null (.str "Size: 2 mm".data) = JsStr.null :=
  ⟨rfl, patch_fault_returns_original JsStr.null (.str "Size: 2 mm".data) _ rfl⟩

/-- Index-based slot reads beyond the third slot always come up empty. -/
theorem buildPairsGo_ge3 (v : VariantRow) :
    ∀ (names : List (Option Str)) (i : Nat), 3 ≤ i → buildPairsGo v i names = [] := by
  intro names
  induction names with
  | nil => intro i _; rfl
  | cons nm rest ih =>
    intro i hi
    obtain ⟨k, rfl⟩ : ∃ k, i = k + 3 := ⟨i - 3, by omega⟩
    show buildPairsGo v (k + 3) (nm :: rest) = []
    have hs : slotOf v (k + 3) = none := rfl
    simp only [buildPairsGo, hs]
    exact ih (k + 4) (by omega)

/-- The source's index-driven pair accumulation agrees with the spec's walk
of the option list against the positional slot sequence. -/
theorem buildPairsGo_eq_specPairs (v : VariantRow) :
    ∀ (opts : List ProductOption) (i : Nat),
      buildPairsGo v i (opts.map fun o => o.name) = specPairs opts ((specSlots v).drop i) := by
  intro opts
  induction opts with
  | nil => intro i; rfl
  | cons o os ih =>
    intro i
    rcases i with _ | (_ | (_ | k))
    · simp only [List.map_cons, buildPairsGo, slotOf, specSlots, List.drop_zero]
      cases h1 : v.option1 with
      | none => simpa [specPairs] using ih 1
      | some val =>
        by_cases hv : val = [] <;>
          simp [specPairs, hv, List.isEmpty_iff, ih 1, specSlots]
    · simp only [List.map_cons, buildPairsGo, slotOf, specSlots, List.drop_succ_cons,
        List.drop_zero]
      cases h2 : v.option2 with
      | none => simpa [specPairs] using ih 2
      | some val =>
        by_cases hv : val = [] <;>
          simp [specPairs, hv, List.isEmpty_iff, ih 2, specSlots]
    · simp only [List.map_cons, buildPairsGo, slotOf, specSlots, List.drop_succ_cons,
        List.drop_zero]
      cases h3 : v.option3 with
      | none => simpa [specPairs] using ih 3
      | some val =>
        by_cases hv : val = [] <;>
          simp [specPairs, hv, List.isEmpty_iff, ih 3, specSlots]
    · have hs : slotOf v (k + 3) = none := rfl
      have hd : (specSlots v).drop (k + 3) = [] := by
        simp [specSlots]
      simp only [List.map_cons, buildPairsGo, hs, hd, specPairs]
      exact buildPairsGo_ge3 v _ _ (by omega)

/-- C9: `formatVariantsForDescription` renders exactly as the specification
describes: `"Standard"` for an empty or absent variant list, otherwise
per-variant `"OptionName: value"` pairs read positionally with empty slots
skipped, title (or `"Standard"`) fallback, `", "` and `"; "` joins. -/
theorem format_follows_spec (variants : Option (List VariantRow))
    (options : Option (List ProductOption)) :
    formatVariantsForDescription variants options = specFormat variants options := by
  cases variants with
  | none => rfl
  | some vs =>
    unfold formatVariantsForDescription specFormat
    by_cases hv : vs = []
    · simp [hv, List.isEmpty_iff]
    · simp only [List.isEmpty_iff, hv, if_neg, Option.getD_some]
      have hnames : (match options with
          | none => ([] : List (Option Str))
          | some os => os.map fun o => o.name) = (options.getD []).map fun o => o.name := by
        cases options <;> rfl
      simp only [hnames]
      refine congrArg (List.intercalate "; ".data) (List.map_congr_left fun v _ => ?_)
      have hp : buildPairsGo v 0 ((options.getD []).map fun o => o.name)
          = specPairs (options.getD []) (specSlots v) := by
        simpa using buildPairsGo_eq_specPairs v (options.getD []) 0
      rw [hp]
      unfold specVariantText
      by_cases hpp : specPairs (options.getD []) (specSlots v) = []
      · simp only [hpp, if_pos rfl]
        cases ht : v.title with
        | none => rfl
        | some t =>
          by_cases htt : t = [] <;> simp [htt]
      · simp [hpp]

/-- Pointwise agreement forces equal lengths. -/
theorem listAgree_length {α : Type} (f : α → α → Bool) :
    ∀ as2 bs, listAgree f as2 bs = true → as2.length = bs.length := by
  intro as2
  induction as2 with
  | nil => intro bs h; cases bs with
    | nil => rfl
    | cons b bs => simp [listAgree] at h
  | cons a as2 ih =>
    intro bs h
    cases bs with
    | nil => simp [listAgree] at h
    | cons b bs =>
      simp only [listAgree, Bool.and_eq_true] at h
      simpa using ih bs h.2

/-- Core-equal rows have identical positional slots. -/
theorem slotOf_coreEq {v v2 : VariantRow} (h : coreEqVar v v2 = true) (i : Nat) :
    slotOf v i = slotOf v2 i := by
  simp only [coreEqVar, Bool.and_eq_true, decide_eq_true_eq] at h
  obtain ⟨⟨⟨⟨hid, htit⟩, h1⟩, h2⟩, h3⟩ := h
  rcases i with _ | (_ | (_ | k)) <;> simp [slotOf, h1, h2, h3]

/-- Core-equal rows produce identical pair lists. -/
theorem buildPairsGo_coreEq {v v2 : VariantRow} (h : coreEqVar v v2 = true) :
    ∀ (names : List (Option Str)) (i : Nat), buildPairsGo v i names = buildPairsGo v2 i names := by
  intro names
  induction names with
  | nil => intro i; rfl
  | cons nm rest ih =>
    intro i
    simp only [buildPairsGo, slotOf_coreEq h i]
    cases slotOf v2 i with
    | none => exact ih (i + 1)
    | some val =>
      by_cases hv : val.isEmpty <;> simp [hv, ih (i + 1)]

/-- The variant walk of the comparator never reads the commercial fields. -/
theorem cmpVariants_coreEq :
    ∀ (i : Nat) (vs vs2 ws ws2 : List VariantRow),
      listAgree coreEqVar vs vs2 = true → listAgree coreEqVar ws ws2 = true →
      cmpVariants i vs ws = cmpVariants i vs2 ws2 := by
  intro i vs
  induction vs generalizing i with
  | nil =>
    intro vs2 ws ws2 h1 h2
    cases vs2 with
    | nil =>
      cases ws with
      | nil =>
        cases ws2 with
        | nil => rfl
        | cons b bs => simp [listAgree] at h2
      | cons a as2 =>
        cases ws2 with
        | nil => simp [listAgree] at h2
        | cons b bs => rfl
    | cons b bs => simp [listAgree] at h1
  | cons o os ih =>
    intro vs2 ws ws2 h1 h2
    cases vs2 with
    | nil => simp [listAgree] at h1
    | cons o2 os2 =>
      simp only [listAgree, Bool.and_eq_true] at h1
      cases ws with
      | nil =>
        cases ws2 with
        | nil => rfl
        | cons b bs => simp [listAgree] at h2
      | cons n ns =>
        cases ws2 with
        | nil => simp [listAgree] at h2
        | cons n2 ns2 =>
          simp only [listAgree, Bool.and_eq_true] at h2
          have ho := h1.1
          have hn := h2.1
          simp only [coreEqVar, Bool.and_eq_true, decide_eq_true_eq] at ho hn
          obtain ⟨⟨⟨⟨hoid, hot⟩, ho1⟩, ho2⟩, ho3⟩ := ho
          obtain ⟨⟨⟨⟨hnid, hnt⟩, hn1⟩, hn2⟩, hn3⟩ := hn
          simp only [cmpVariants, ho1, ho2, ho3, hn1, hn2, hn3, hot, hnt]
          split
          · rfl
          · split
            · rfl
            · exact ih (i + 1) os2 ns ns2 h1.2 h2.2

/-- Lift core equality through the optional variant list. -/
theorem coreEqVariants_getD {a b : Option (List VariantRow)}
    (h : coreEqVariants a b = true) : listAgree coreEqVar (a.getD []) (b.getD []) = true := by
  cases a <;> cases b <;> simp_all [coreEqVariants, listAgree]

/-- Per-variant rendering never reads the commercial fields. -/
theorem specVariantText_coreEq (opts : List ProductOption) {v v2 : VariantRow}
    (h : coreEqVar v v2 = true) : specVariantText opts v = specVariantText opts v2 := by
  simp only [coreEqVar, Bool.and_eq_true, decide_eq_true_eq] at h
  obtain ⟨⟨⟨⟨hid, htit⟩, h1⟩, h2⟩, h3⟩ := h
  unfold specVariantText specSlots
  rw [htit, h1, h2, h3]

/-- Mapped per-variant rendering under pointwise core equality. -/
theorem map_specVariantText_coreEq (opts : List ProductOption) :
    ∀ vs vs2, listAgree coreEqVar vs vs2 = true →
      vs.map (specVariantText opts) = vs2.map (specVariantText opts) := by
  intro vs
  induction vs with
  | nil =>
    intro vs2 h
    cases vs2 with
    | nil => rfl
    | cons b bs => simp [listAgree] at h
  | cons v vs ih =>
    intro vs2 h
    cases vs2 with
    | nil => simp [listAgree] at h
    | cons v2 vs2 =>
      simp only [listAgree, Bool.and_eq_true] at h
      simp [specVariantText_coreEq opts h.1, ih vs2 h.2]

/-- The formatter never reads the commercial fields. -/
theorem format_coreEq {a b : Option (List VariantRow)}
    (options : Option (List ProductOption)) (h : coreEqVariants a b = true) :
    formatVariantsForDescription a options = formatVariantsForDescription b options := by
  rw [format_follows_spec, format_follows_spec]
  unfold specFormat
  have hl := coreEqVariants_getD h
  have hlen := listAgree_length coreEqVar _ _ hl
  by_cases hae : a.getD [] = []
  · have hbe : b.getD [] = [] := by
      have : (b.getD []).length = 0 := by rw [← hlen, hae]; rfl
      exact List.eq_nil_of_length_eq_zero this
    simp [hae, hbe]
  · have hbe : ¬ b.getD [] = [] := by
      intro hx
      apply hae
      have : (a.getD []).length = 0 := by rw [hlen, hx]; rfl
      exact List.eq_nil_of_length_eq_zero this
    simp only [hae, hbe, if_neg]
    exact congrArg (List.intercalate "; ".data) (map_specVariantText_coreEq _ _ _ hl)

/-- C10: altering only `sku`, `price` and/or `inventoryQuantity` of variant
rows, in either snapshot, changes neither the comparator's result object nor
the formatter's output. -/
theorem commercial_fields_noninterference
    (o o2 n n2 : Product)
    (hoo : o.options = o2.options) (hno : n.options = n2.options)
    (hov : coreEqVariants o.variants o2.variants = true)
    (hnv : coreEqVariants n.variants n2.variants = true) :
    detectVariantChanges (some o) (some n) = detectVariantChanges (some o2) (some n2) ∧
    formatVariantsForDescription o.variants o.options
      = formatVariantsForDescription o2.variants o2.options ∧
    formatVariantsForDescription n.variants n.options
      = formatVariantsForDescription n2.variants n2.options := by
  have lov := listAgree_length coreEqVar _ _ (coreEqVariants_getD hov)
  have lnv := listAgree_length coreEqVar _ _ (coreEqVariants_getD hnv)
  refine ⟨?_, ?_, ?_⟩
  · simp only [detectVariantChanges, detectBody]
    rw [hoo, hno, lov, lnv,
      cmpVariants_coreEq 0 _ _ _ _ (coreEqVariants_getD hov) (coreEqVariants_getD hnv)]
  · rw [hoo]; exact format_coreEq o2.options hov
  · rw [hno]; exact format_coreEq n2.options hnv

/-- Witness for C10: changing a variant's `sku`, `price` and
`inventoryQuantity` leaves both outputs untouched on a concrete snapshot
pair. -/
theorem commercial_fields_noninterference_witness :
    let v1 : VariantRow := { id := some "1".data, title := some "T".data, option1 := some "A".data, sku := some "S1".data, price := some "9".data }
    let v1c : VariantRow := { id := some "1".data, title := some "T".data, option1 := some "A".data, sku := some "S2".data, price := some "7".data, inventoryQuantity := some "3".data }
    let w1 : VariantRow := { id := some "1".data, title := some "T".data, option1 := some "B".data, price := some "9".data }
    let w1c : VariantRow := { id := some "1".data, title := some "T".data, option1 := some "B".data, sku := some "X".data }
    let opts : List ProductOption := [{ name := some "Size".data, values := some ["A".data, "B".data] }]
    let o : Product := { variants := some [v1], options := some opts }
    let o2 : Product := { variants := some [v1c], options := some opts }
    let n : Product := { variants := some [w1], options := some opts }
    let n2 : Product := { variants := some [w1c], options := some opts }
    detectVariantChanges (some o) (some n) = detectVariantChanges (some o2) (some n2) ∧
    formatVariantsForDescription o.variants o.options
      = formatVariantsForDescription o2.variants o2.options ∧
    formatVariantsForDescription n.variants n.options
      = formatVariantsForDescription n2.variants n2.options := by
  intro v1 v1c w1 w1c opts o o2 n n2
  exact commercial_fields_noninterference o o2 n n2 rfl rfl (by decide) (by decide)

/-- The value loop finds nothing on identical lists. -/
theorem cmpValues_self (nm : Option Str) : ∀ vs, cmpValues nm vs vs = none := by
  intro vs
  induction vs with
  | nil => rfl
  | cons v vs ih => simp [cmpValues, ih]

/-- The option loop finds nothing when the lists agree on names and values. -/
theorem cmpOptions_agree : ∀ os ns, listAgree optAgree os ns = true → cmpOptions os ns = none := by
  intro os
  induction os with
  | nil =>
    intro ns h
    cases ns with
    | nil => rfl
    | cons b bs => simp [listAgree] at h
  | cons o os ih =>
    intro ns h
    cases ns with
    | nil => simp [listAgree] at h
    | cons n ns =>
      simp only [listAgree, Bool.and_eq_true] at h
      have ha := h.1
      simp only [optAgree, Bool.and_eq_true, decide_eq_true_eq] at ha
      simp [cmpOptions, ha.1, ha.2, cmpValues_self, ih ns h.2]

/-- The variant loop finds nothing when titles and all three slots agree. -/
theorem cmpVariants_agree : ∀ vs ws, listAgree rowAgree vs ws = true →
    ∀ i, cmpVariants i vs ws = none := by
  intro vs
  induction vs with
  | nil =>
    intro ws h i
    cases ws with
    | nil => rfl
    | cons b bs => simp [listAgree] at h
  | cons v vs ih =>
    intro ws h i
    cases ws with
    | nil => simp [listAgree] at h
    | cons w ws =>
      simp only [listAgree, Bool.and_eq_true] at h
      have ha := h.1
      simp only [rowAgree, Bool.and_eq_true, decide_eq_true_eq] at ha
      obtain ⟨⟨⟨ht, h1⟩, h2⟩, h3⟩ := ha
      simp [cmpVariants, ht, h1, h2, h3, ih ws h.2 (i + 1)]

/-- C5 (amended): the comparator reports no change exactly when the snapshots
agree on all option definitions and on every variant's title and **all
three** positional slots — slots beyond the option count are compared too. -/
theorem detect_no_changes_full_slot_agreement (o n : Product)
    (ho : listAgree optAgree (o.options.getD []) (n.options.getD []) = true)
    (hv : listAgree rowAgree (o.variants.getD []) (n.variants.getD []) = true) :
    detectVariantChanges (some o) (some n) =
      { hasChanges := false, details := "No variant changes detected".data } := by
  have lv := listAgree_length rowAgree _ _ hv
  have lo := listAgree_length optAgree _ _ ho
  simp [detectVariantChanges, detectBody, lv, lo, cmpOptions_agree _ _ ho,
    cmpVariants_agree _ _ hv 0]

/-- Witness for C5 (amended) at a concrete agreeing pair. -/
theorem detect_no_changes_full_slot_agreement_witness :
    detectVariantChanges
      (some { variants := some [{ title := some "T".data, option1 := some "A".data, option2 := some "X".data, sku := some "s".data }], options := some [{ name := some "Size".data, values := some ["A".data] }] })
      (some { variants := some [{ title := some "T".data, option1 := some "A".data, option2 := some "X".data, price := some "9".data }], options := some [{ name := some "Size".data, values := some ["A".data] }] }) =
      { hasChanges := false, details := "No variant changes detected".data } :=
  detect_no_changes_full_slot_agreement _ _ (by decide) (by decide)

/-- Counterexample to C5 as stated: one option definition (`n = 1 < 3`), both
snapshots agree on the option, the variant titles, and slot 1, and differ only
in the surplus slot 2 — yet the comparator reports a change
(`variant_options`), because it always compares `option1`, `option2` and
`option3`; surplus slots are **not** ignored. -/
theorem detect_surplus_slot_compared_cex :
    let oC : Product := { variants := some [{ title := some "T".data, option1 := some "A".data, option2 := some "X".data }], options := some [{ name := some "Size".data, values := some ["A".data] }] }
    let nC : Product := { variants := some [{ title := some "T".data, option1 := some "A".data, option2 := some "Y".data }], options := some [{ name := some "Size".data, values := some ["A".data] }] }
    oC.options = nC.options ∧
    (oC.options.getD []).length = 1 ∧
    (oC.variants.getD []).map VariantRow.title = (nC.variants.getD []).map VariantRow.title ∧
    (oC.variants.getD []).map VariantRow.option1 = (nC.variants.getD []).map VariantRow.option1 ∧
    (detectVariantChanges (some oC) (some nC)).hasChanges = true ∧
    (detectVariantChanges (some oC) (some nC)).changeType = some ChangeType.variant_options := by
  decide

/-- On equal-length lists the value loop finds nothing iff the lists are
equal. -/
theorem cmpValues_none_iff (nm : Option Str) :
    ∀ ov nv, ov.length = nv.length → (cmpValues nm ov nv = none ↔ ov = nv) := by
  intro ov
  induction ov with
  | nil =>
    intro nv h
    cases nv with
    | nil => simp [cmpValues]
    | cons b bs => simp at h
  | cons a as2 ih =>
    intro nv h
    cases nv with
    | nil => simp at h
    | cons b bs =>
      simp only [List.length_cons, Nat.add_right_cancel_iff] at h
      by_cases hab : a = b
      · simp [cmpValues, hab, ih bs h]
      · simp [cmpValues, hab]

/-- Every hit of the value loop is an `option_value` change. -/
theorem cmpValues_some_kind (nm : Option Str) :
    ∀ ov nv r, cmpValues nm ov nv = some r →
      r.hasChanges = true ∧ r.changeType = some ChangeType.option_value := by
  intro ov
  induction ov with
  | nil => intro nv r h; cases nv <;> simp [cmpValues] at h
  | cons a as2 ih =>
    intro nv r h
    cases nv with
    | nil => simp [cmpValues] at h
    | cons b bs =>
      by_cases hab : a = b
      · rw [cmpValues, if_neg (by simp [hab])] at h
        exact ih bs r h
      · rw [cmpValues, if_pos (by simp [hab])] at h
        cases h
        exact ⟨rfl, rfl⟩

/-- The option loop reports exactly the spec's first per-index option issue
(and every hit has `hasChanges = true`). -/
theorem cmpOptions_spec :
    ∀ os ns, os.length = ns.length →
      (cmpOptions os ns).map ChangeResult.changeType = (specOptionKind os ns).map some ∧
      (∀ r, cmpOptions os ns = some r → r.hasChanges = true) := by
  intro os
  induction os with
  | nil =>
    intro ns h
    cases ns with
    | nil => exact ⟨rfl, by intro r hr; simp [cmpOptions] at hr⟩
    | cons b bs => simp at h
  | cons o os ih =>
    intro ns h
    cases ns with
    | nil => simp at h
    | cons n ns =>
      simp only [List.length_cons, Nat.add_right_cancel_iff] at h
      by_cases hname : o.name = n.name
      · by_cases hlen : (o.values.getD []).length = (n.values.getD []).length
        · by_cases hvals : o.values.getD [] = n.values.getD []
          · have hcv : cmpValues o.name (o.values.getD []) (n.values.getD []) = none :=
              (cmpValues_none_iff _ _ _ hlen).mpr hvals
            have hrec := ih ns h
            have e1 : cmpOptions (o :: os) (n :: ns) = cmpOptions os ns := by
              simp only [cmpOptions]
              rw [if_neg (by simpa using hname), if_neg (by simpa using hlen), hcv]
            have e2 : specOptionKind (o :: os) (n :: ns) = specOptionKind os ns := by
              simp only [specOptionKind, List.zip_cons_cons, List.findSome?_cons]
              rw [if_neg (by simpa using hname), if_neg (by simpa using hlen),
                if_neg (by simpa using hvals)]
            rw [e1, e2]
            exact hrec
          · have hne : cmpValues o.name (o.values.getD []) (n.values.getD []) ≠ none := by
              intro hx
              exact hvals ((cmpValues_none_iff _ _ _ hlen).mp hx)
            obtain ⟨r0, hr0⟩ := Option.ne_none_iff_exists'.mp hne
            have hk := cmpValues_some_kind _ _ _ _ hr0
            have e1 : cmpOptions (o :: os) (n :: ns) = some r0 := by
              simp only [cmpOptions]
              rw [if_neg (by simpa using hname), if_neg (by simpa using hlen), hr0]
            have e2 : specOptionKind (o :: os) (n :: ns) = some ChangeType.option_value := by
              simp only [specOptionKind, List.zip_cons_cons, List.findSome?_cons]
              rw [if_neg (by simpa using hname), if_neg (by simpa using hlen),
                if_pos (by simpa using hvals)]
            rw [e1, e2]
            refine ⟨by simp [hk.2], ?_⟩
            intro r hr
            cases hr
            exact hk.1
        · have e1 : cmpOptions (o :: os) (n :: ns) = some
              { hasChanges := true, changeType := some .option_values_count,
                optionName := some o.name,
                oldCount := some (o.values.getD []).length,
                newCount := some (n.values.getD []).length,
                details := "Option \"".data ++ showOpt o.name
                  ++ "\" values count changed from ".data ++ natStr (o.values.getD []).length
                  ++ " to ".data ++ natStr (n.values.getD []).length } := by
            simp only [cmpOptions]
            rw [if_neg (by simpa using hname), if_pos (by simpa using hlen)]
          have e2 : specOptionKind (o :: os) (n :: ns) = some ChangeType.option_values_count := by
            simp only [specOptionKind, List.zip_cons_cons, List.findSome?_cons]
            rw [if_neg (by simpa using hname), if_pos (by simpa using hlen)]
          rw [e1, e2]
          refine ⟨rfl, ?_⟩
          intro r hr
          cases hr
          rfl
      · have e1 : cmpOptions (o :: os) (n :: ns) = some
            { hasChanges := true, changeType := some .option_name,
              oldValue := some o.name, newValue := some n.name,
              details := "Option name changed from \"".data ++ showOpt o.name
                ++ "\" to \"".data ++ showOpt n.name ++ "\"".data } := by
          simp only [cmpOptions]
          rw [if_pos (by simpa using hname)]
        have e2 : specOptionKind (o :: os) (n :: ns) = some ChangeType.option_name := by
          simp only [specOptionKind, List.zip_cons_cons, List.findSome?_cons]
          rw [if_pos (by simpa using hname)]
        rw [e1, e2]
        refine ⟨rfl, ?_⟩
        intro r hr
        cases hr
        rfl

/-- The variant loop reports exactly the spec's first per-index variant issue
(and every hit has `hasChanges = true`). -/
theorem cmpVariants_spec :
    ∀ vs ws i,
      (cmpVariants i vs ws).map ChangeResult.changeType = (specVariantKind vs ws).map some ∧
      (∀ r, cmpVariants i vs ws = some r → r.hasChanges = true) := by
  intro vs
  induction vs with
  | nil =>
    intro ws i
    cases ws with
    | nil => exact ⟨rfl, by intro r hr; simp [cmpVariants] at hr⟩
    | cons b bs => exact ⟨rfl, by intro r hr; simp [cmpVariants] at hr⟩
  | cons v vs ih =>
    intro ws i
    cases ws with
    | nil => exact ⟨rfl, by intro r hr; simp [cmpVariants] at hr⟩
    | cons w ws =>
      by_cases hslots : v.option1 ≠ w.option1 ∨ v.option2 ≠ w.option2 ∨ v.option3 ≠ w.option3
      · have e1 : cmpVariants i (v :: vs) (w :: ws) = some
            { hasChanges := true, changeType := some .variant_options,
              variantIndex := some i,
              oldVariant := some v.title, newVariant := some w.title,
              details := "Variant options changed from \"".data ++ showOpt v.title
                ++ "\" to \"".data ++ showOpt w.title ++ "\"".data } := by
          rw [cmpVariants, if_pos hslots]
        have e2 : specVariantKind (v :: vs) (w :: ws) = some ChangeType.variant_options := by
          simp only [specVariantKind, List.zip_cons_cons, List.findSome?_cons]
          rw [if_pos hslots]
        rw [e1, e2]
        refine ⟨rfl, ?_⟩
        intro r hr
        cases hr
        rfl
      · by_cases htit : v.title = w.title
        · have hrec := ih ws (i + 1)
          have e1 : cmpVariants i (v :: vs) (w :: ws) = cmpVariants (i + 1) vs ws := by
            rw [cmpVariants, if_neg hslots, if_neg (by simpa using htit)]
          have e2 : specVariantKind (v :: vs) (w :: ws) = specVariantKind vs ws := by
            simp only [specVariantKind, List.zip_cons_cons, List.findSome?_cons]
            rw [if_neg hslots, if_neg (by simpa using htit)]
          rw [e1, e2]
          exact hrec
        · have e1 : cmpVariants i (v :: vs) (w :: ws) = some
              { hasChanges := true, changeType := some .variant_title,
                variantIndex := some i,
                oldValue := some v.title, newValue := some w.title,
                details := "Variant title changed from \"".data ++ showOpt v.title
                  ++ "\" to \"".data ++ showOpt w.title ++ "\"".data } := by
            rw [cmpVariants, if_neg hslots, if_pos (by simpa using htit)]
          have e2 : specVariantKind (v :: vs) (w :: ws) = some ChangeType.variant_title := by
            simp only [specVariantKind, List.zip_cons_cons, List.findSome?_cons]
            rw [if_neg hslots, if_pos (by simpa using htit)]
          rw [e1, e2]
          refine ⟨rfl, ?_⟩
          intro r hr
          cases hr
          rfl

/-- C4 (amended): the comparator short-circuits in this order — variant
count, option count, then a single per-index walk of the options checking
name, value-list length and values for each index before moving to the next,
then the per-index variant walk checking slots then title; `hasChanges` is
reported exactly when some kind is reported. -/
theorem detect_reports_first_difference (o n : Product) :
    (detectVariantChanges (some o) (some n)).changeType = detectSpecKind o n ∧
    (detectVariantChanges (some o) (some n)).hasChanges = (detectSpecKind o n).isSome := by
  by_cases h1 : (o.variants.getD []).length = (n.variants.getD []).length
  · by_cases h2 : (o.options.getD []).length = (n.options.getD []).length
    · have e1 : detectVariantChanges (some o) (some n) =
          (match cmpOptions (o.options.getD []) (n.options.getD []) with
          | some r => r
          | none =>
            match cmpVariants 0 (o.variants.getD []) (n.variants.getD []) with
            | some r => r
            | none => { hasChanges := false, details := "No variant changes detected".data }) := by
        simp only [detectVariantChanges, detectBody]
        rw [if_neg (by simpa using h1), if_neg (by simpa using h2)]
        cases cmpOptions (o.options.getD []) (n.options.getD []) with
        | some r => rfl
        | none =>
          cases cmpVariants 0 (o.variants.getD []) (n.variants.getD []) with
          | some r => rfl
          | none => rfl
      have e2 : detectSpecKind o n =
          (match specOptionKind (o.options.getD []) (n.options.getD []) with
          | some k => some k
          | none => specVariantKind (o.variants.getD []) (n.variants.getD [])) := by
        simp only [detectSpecKind]
        rw [if_neg (by simpa using h1), if_neg (by simpa using h2)]
      have ho := cmpOptions_spec (o.options.getD []) (n.options.getD []) h2
      have hv := cmpVariants_spec (o.variants.getD []) (n.variants.getD []) 0
      rw [e1, e2]
      cases hco : cmpOptions (o.options.getD []) (n.options.getD []) with
      | some r =>
        rw [hco] at ho
        cases hsk : specOptionKind (o.options.getD []) (n.options.getD []) with
        | none => rw [hsk] at ho; simp at ho
        | some k =>
          rw [hsk] at ho
          simp only [Option.map_some'] at ho
          exact ⟨by simpa using ho.1, by simp [ho.2 r rfl]⟩
      | none =>
        rw [hco] at ho
        cases hsk : specOptionKind (o.options.getD []) (n.options.getD []) with
        | some k => rw [hsk] at ho; simp at ho
        | none =>
          cases hcv : cmpVariants 0 (o.variants.getD []) (n.variants.getD []) with
          | some r =>
            rw [hcv] at hv
            cases hvk : specVariantKind (o.variants.getD []) (n.variants.getD []) with
            | none => rw [hvk] at hv; simp at hv
            | some k =>
              rw [hvk] at hv
              simp only [Option.map_some'] at hv
              exact ⟨by simpa using hv.1, by simp [hv.2 r rfl]⟩
          | none =>
            rw [hcv] at hv
            cases hvk : specVariantKind (o.variants.getD []) (n.variants.getD []) with
            | some k => rw [hvk] at hv; simp at hv
            | none => exact ⟨by simp [hvk], by simp [hvk]⟩
    · have e1 : detectVariantChanges (some o) (some n) =
          { hasChanges := true, changeType := some .option_count,
            oldCount := some (o.options.getD []).length,
            newCount := some (n.options.getD []).length,
            details := "Option count changed from ".data ++ natStr (o.options.getD []).length
              ++ " to ".data ++ natStr (n.options.getD []).length } := by
        simp only [detectVariantChanges, detectBody]
        rw [if_neg (by simpa using h1), if_pos (by simpa using h2)]
      have e2 : detectSpecKind o n = some ChangeType.option_count := by
        simp only [detectSpecKind]
        rw [if_neg (by simpa using h1), if_pos (by simpa using h2)]
      rw [e1, e2]
      exact ⟨rfl, rfl⟩
  · have e1 : detectVariantChanges (some o) (some n) =
        { hasChanges := true, changeType := some .variant_count,
          oldCount := some (o.variants.getD []).length,
          newCount := some (n.variants.getD []).length,
          details := "Variant count changed from ".data ++ natStr (o.variants.getD []).length
            ++ " to ".data ++ natStr (n.variants.getD []).length } := by
      simp only [detectVariantChanges, detectBody]
      rw [if_pos (by simpa using h1)]
    have e2 : detectSpecKind o n = some ChangeType.variant_count := by
      simp only [detectSpecKind]
      rw [if_pos (by simpa using h1)]
    rw [e1, e2]
    exact ⟨rfl, rfl⟩

/-- Counterexample to C4 as stated: with equal counts, option 0 differing in
a value and option 1 differing in name, the claimed order (all per-index
names in step 3, value lists only in step 4) would report `option_name`, but
the comparator walks each option fully before the next and reports
`option_value`. -/
theorem detect_phased_order_cex :
    let oC : Product := { variants := some [], options := some [{ name := some "A".data, values := some ["x".data] }, { name := some "B".data, values := some [] }] }
    let nC : Product := { variants := some [], options := some [{ name := some "A".data, values := some ["y".data] }, { name := some "C".data, values := some [] }] }
    (detectVariantChanges (some oC) (some nC)).changeType = some ChangeType.option_value ∧
    detectClaimKind oC nC = some ChangeType.option_name ∧
    ChangeType.option_value ≠ ChangeType.option_name := by
  decide

/-! ### List-machinery lemmas for the patcher proofs -/

/-- `containsSeq` decides the infix relation. -/
theorem containsSeq_iff (pat : Str) : ∀ l, containsSeq pat l = true ↔ pat <:+: l := by
  intro l
  induction l with
  | nil => simp [containsSeq, List.isEmpty_iff, List.infix_nil]
  | cons c t ih =>
    simp [containsSeq, List.infix_cons_iff, List.isPrefixOf_iff_prefix, ih]

/-- `dropLit` succeeds exactly on literal prefixes. -/
theorem dropLit_some_iff : ∀ (lit l r : Str), dropLit lit l = some r ↔ l = lit ++ r := by
  intro lit
  induction lit with
  | nil =>
    intro l r
    simp [dropLit, eq_comm]
  | cons c cs ih =>
    intro l r
    cases l with
    | nil => simp [dropLit]
    | cons x xs =>
      by_cases hx : x = c
      · subst hx
        simp [dropLit, ih xs r]
      · simp only [dropLit, if_neg hx, List.cons_append]
        constructor
        · intro h; cases h
        · intro h
          exact absurd (List.cons.injEq .. ▸ h).1 hx

/-- Greedy `takeWhile` over a whitespace run that ends at a non-matching
character. -/
theorem takeWhile_run (p : Char → Bool) :
    ∀ (ws rest : Str) (c : Char), ws.all p = true → p c = false →
      ((ws ++ c :: rest).takeWhile p = ws ∧ (ws ++ c :: rest).dropWhile p = c :: rest) := by
  intro ws
  induction ws with
  | nil =>
    intro rest c _ hc
    simp [List.takeWhile, List.dropWhile, hc]
  | cons w ws ih =>
    intro rest c hall hc
    simp only [List.all_cons, Bool.and_eq_true] at hall
    have := ih rest c hall.2 hc
    simp [List.takeWhile_cons, List.dropWhile_cons, hall.1, this.1, this.2]

/-- A prefix of `a ++ b` no longer than `a` is a prefix of `a`. -/
theorem prefix_take_of_append {l a b : Str} (h : l <+: a ++ b) (hle : l.length ≤ a.length) :
    l <+: a := by
  obtain ⟨t, ht⟩ := h
  have hl : l = a.take l.length := by
    have h1 : (l ++ t).take l.length = l := List.take_left ..
    rw [ht] at h1
    rw [List.take_append_eq_append_take, Nat.sub_eq_zero_of_le hle,
      List.take_zero, List.append_nil] at h1
    exact h1.symm
  rw [hl]
  exact List.take_prefix ..

/-- A prefix of `a ++ b` longer than `a` splits across the boundary. -/
theorem prefix_split_of_append {l a b : Str} (h : l <+: a ++ b) (hlt : a.length < l.length) :
    a <+: l ∧ l.drop a.length <+: b := by
  obtain ⟨t, ht⟩ := h
  constructor
  · have h1 : (a ++ b).take a.length = a := List.take_left ..
    rw [← ht] at h1
    rw [List.take_append_eq_append_take, Nat.sub_eq_zero_of_le (by omega),
      List.take_zero, List.append_nil] at h1
    rw [← h1]
    exact List.take_prefix ..
  · have h1 : (a ++ b).drop a.length = b := List.drop_left ..
    rw [← ht] at h1
    rw [List.drop_append_eq_append_drop, Nat.sub_eq_zero_of_le (by omega),
      List.drop_zero] at h1
    exact ⟨t, h1⟩

/-- `</li>` has no self-overlap (no proper border). -/
theorem liClose_no_border : ∀ q, q < 5 → 0 < q → ¬ (liClose.drop q = liClose.take (5 - q)) := by
  decide

/-- `<ul>` has no self-overlap. -/
theorem ulOpen_no_border : ∀ q, q < 4 → 0 < q → ¬ (ulOpen.drop q = ulOpen.take (4 - q)) := by
  decide

/-- No occurrence of `</li>` can begin inside `a` when `a` is close-free and
`</li>` follows it immediately. -/
theorem no_close_prefix {a r : Str} (ha : containsSeq liClose a = false) (hne : a ≠ []) :
    ¬ liClose <+: a ++ (liClose ++ r) := by
  intro h
  rcases Nat.lt_or_ge a.length liClose.length with hlt | hge
  · have hsp := prefix_split_of_append h hlt
    have hq0 : 0 < a.length := List.length_pos.mpr hne
    have hq5 : a.length < 5 := hlt
    have h2 : liClose.drop a.length <+: liClose := by
      refine prefix_take_of_append hsp.2 ?_
      simp
    have h3 : liClose.drop a.length = liClose.take (5 - a.length) := by
      have := List.prefix_iff_eq_take.mp h2
      simpa using this
    exact liClose_no_border a.length hq5 hq0 h3
  · have hp := prefix_take_of_append h (by simpa using hge)
    have hc : containsSeq liClose a = true := (containsSeq_iff liClose a).mpr hp.isInfix
    rw [ha] at hc
    cases hc

/-- Inversion of the lazy close scan. -/
theorem scanToClose_some : ∀ (l mc r : Str), scanToClose l = some (mc, r) →
    ∃ body, mc = body ++ liClose ∧ l = body ++ liClose ++ r ∧
      body.all (fun c => !isLineTerm c) = true ∧ containsSeq liClose body = false := by
  intro l
  induction l with
  | nil => intro mc r h; simp [scanToClose] at h
  | cons c t ih =>
    intro mc r h
    rw [scanToClose] at h
    by_cases hp : liClose.isPrefixOf (c :: t)
    · rw [if_pos hp] at h
      obtain ⟨t2, ht2⟩ := List.isPrefixOf_iff_prefix.mp hp
      cases h
      refine ⟨[], by simp, ?_, rfl, rfl⟩
      have hd : (liClose ++ t2).drop 5 = t2 := List.drop_left' (by decide)
      rw [← ht2, hd]
      simp
    · rw [if_neg hp] at h
      by_cases hlt : isLineTerm c
      · rw [if_pos hlt] at h; cases h
      · rw [if_neg hlt] at h
        cases hs : scanToClose t with
        | none => rw [hs] at h; cases h
        | some p =>
          rw [hs] at h
          obtain ⟨m', r'⟩ := p
          cases h
          obtain ⟨body', hb1, hb2, hb3, hb4⟩ := ih m' r hs
          refine ⟨c :: body', by simp [hb1], by simp [hb2], ?_, ?_⟩
          · simp only [List.all_cons, Bool.and_eq_true]
            exact ⟨by simp [hlt], hb3⟩
          · have hnp : liClose.isPrefixOf (c :: body') = false := by
              cases hx : liClose.isPrefixOf (c :: body')
              · rfl
              · exfalso
                apply hp
                rw [List.isPrefixOf_iff_prefix] at hx ⊢
                calc liClose <+: c :: body' := hx
                  _ <+: (c :: body') ++ (liClose ++ r) := List.prefix_append ..
                  _ = c :: t := by simp [hb2]
            simp [containsSeq, hnp, hb4]

/-- Completeness of the lazy close scan: on a close-free single-line body the
scan stops exactly at the appended `</li>`. -/
theorem scanToClose_complete : ∀ (body r : Str),
    body.all (fun c => !isLineTerm c) = true → containsSeq liClose body = false →
    scanToClose (body ++ liClose ++ r) = some (body ++ liClose, r) := by
  intro body
  induction body with
  | nil =>
    intro r _ _
    have hc : liClose.isPrefixOf (liClose ++ r) = true :=
      List.isPrefixOf_iff_prefix.mpr (List.prefix_append ..)
    show scanToClose ('<' :: ("/li>".data ++ r)) = some ([] ++ liClose, r)
    rw [scanToClose]
    have hc2 : liClose.isPrefixOf ('<' :: ("/li>".data ++ r)) = true := hc
    rw [if_pos hc2]
    have hd : ('<' :: ("/li>".data ++ r)).drop 5 = r := by
      show (liClose ++ r).drop 5 = r
      exact List.drop_left' (by rfl)
    rw [hd]
    simp
  | cons c body' ih =>
    intro r hall hfree
    simp only [List.all_cons, Bool.and_eq_true] at hall
    have hfree' : containsSeq liClose body' = false := by
      have := hfree
      simp only [containsSeq, Bool.or_eq_false_iff] at this
      exact this.2
    have hnp : ¬ liClose <+: (c :: body') ++ (liClose ++ r) :=
      no_close_prefix hfree (by simp)
    have hb : liClose.isPrefixOf (c :: (body' ++ (liClose ++ r))) = false := by
      cases hx : liClose.isPrefixOf (c :: (body' ++ (liClose ++ r)))
      · rfl
      · exact absurd (List.isPrefixOf_iff_prefix.mp hx) hnp
    have hlc : isLineTerm c = false := by
      have := hall.1
      simpa using this
    have ih' : scanToClose (body' ++ (liClose ++ r)) = some (body' ++ liClose, r) := by
      rw [← List.append_assoc]
      exact ih r hall.2 hfree'
    have hassoc : (c :: body') ++ liClose ++ r = c :: (body' ++ (liClose ++ r)) := by simp
    rw [hassoc, scanToClose, if_neg (by simp [hb]), if_neg (by simp [hlc]), ih']
    simp

/-- Inversion of the bullet matcher: a successful match is a well-formed
bullet, and the input splits as match ++ rest. -/
theorem matchBullet_some : ∀ {l m r : Str}, matchBullet l = some (m, r) →
    ∃ ws body, m = mkBullet ws body ∧ l = m ++ r ∧ ws.all isJsSpace = true ∧
      body.all (fun c => !isLineTerm c) = true ∧ containsSeq liClose body = false := by
  intro l m r h
  simp only [matchBullet] at h
  cases h1 : dropLit liOpen l with
  | none => rw [h1] at h; cases h
  | some r1 =>
    rw [h1] at h
    dsimp only at h
    cases h2 : dropLit label (r1.dropWhile isJsSpace) with
    | none => rw [h2] at h; cases h
    | some r3 =>
      rw [h2] at h
      dsimp only at h
      cases h3 : scanToClose r3 with
      | none => rw [h3] at h; cases h
      | some p =>
        rw [h3] at h
        dsimp only at h
        obtain ⟨mc, r4⟩ := p
        cases h
        obtain ⟨body, hc1, hc2, hc3, hc4⟩ := scanToClose_some r3 mc r4 h3
        refine ⟨r1.takeWhile isJsSpace, body, ?_, ?_, List.all_takeWhile .., hc3, hc4⟩
        · rw [hc1]
          simp [mkBullet]
        · have hl : l = liOpen ++ r1 := (dropLit_some_iff _ _ _).mp h1
          have hdw : r1.dropWhile isJsSpace = label ++ r3 := (dropLit_some_iff _ _ _).mp h2
          rw [hl, hc1]
          conv_lhs => rw [← List.takeWhile_append_dropWhile (p := isJsSpace) (l := r1)]
          rw [hdw, hc2]
          simp

/-- Completeness of the bullet matcher on a well-formed bullet followed by
anything. -/
theorem matchBullet_complete {ws body : Str} (rest : Str) (hws : ws.all isJsSpace = true)
    (hb1 : body.all (fun c => !isLineTerm c) = true)
    (hb2 : containsSeq liClose body = false) :
    matchBullet (mkBullet ws body ++ rest) = some (mkBullet ws body, rest) := by
  have e1 : dropLit liOpen (mkBullet ws body ++ rest)
      = some (ws ++ (label ++ (body ++ (liClose ++ rest)))) := by
    rw [dropLit_some_iff]
    simp [mkBullet]
  have hshape : label ++ (body ++ (liClose ++ rest))
      = '<' :: ("strong>Available Variants:</strong>".data ++ (body ++ (liClose ++ rest))) := rfl
  have e2 := takeWhile_run isJsSpace ws
    ("strong>Available Variants:</strong>".data ++ (body ++ (liClose ++ rest))) '<' hws
    (by decide)
  have e3 : dropLit label ('<' :: ("strong>Available Variants:</strong>".data
      ++ (body ++ (liClose ++ rest)))) = some (body ++ (liClose ++ rest)) :=
    (dropLit_some_iff _ _ _).mpr hshape.symm
  have e4 : scanToClose (body ++ (liClose ++ rest)) = some (body ++ liClose, rest) := by
    rw [← List.append_assoc]
    exact scanToClose_complete body rest hb1 hb2
  simp only [matchBullet, e1]
  rw [hshape, e2.1, e2.2, e3]
  dsimp only
  rw [e4]
  simp [mkBullet]

/-- A successful bullet match is a `BulletMatch` and exposes `BulletAt`. -/
theorem bulletAt_of_matchBullet {l m r : Str} (h : matchBullet l = some (m, r)) :
    BulletAt l := by
  obtain ⟨ws, body, hm, hl, h1, h2, h3⟩ := matchBullet_some h
  exact ⟨m, r, hl, ws, body, hm, h1, h2, h3⟩

/-- A failed bullet match refutes `BulletAt`. -/
theorem not_bulletAt_of_matchBullet_none {l : Str} (h : matchBullet l = none) :
    ¬ BulletAt l := by
  rintro ⟨m, r, hl, ws, body, hm, h1, h2, h3⟩
  subst hl
  subst hm
  rw [matchBullet_complete r h1 h2 h3] at h
  cases h

/-- Without the label in sight, the bullet matcher fails. -/
theorem matchBullet_none_of_no_label {l : Str} (h : containsSeq label l = false) :
    matchBullet l = none := by
  cases hx : matchBullet l with
  | none => rfl
  | some p =>
    obtain ⟨m, r⟩ := p
    obtain ⟨ws, body, hm, hl, _, _, _⟩ := matchBullet_some hx
    have : containsSeq label l = true := by
      rw [containsSeq_iff]
      exact ⟨liOpen ++ ws, body ++ liClose ++ r, by simp [hl, hm, mkBullet]⟩
    rw [h] at this
    cases this

/-- The removal matcher fails exactly when the bullet matcher does. -/
theorem matchBulletR_none_iff {l : Str} : matchBulletR l = none ↔ matchBullet l = none := by
  unfold matchBulletR
  cases matchBullet l with
  | none => simp
  | some p => obtain ⟨m, r⟩ := p; simp

/-- The first character surviving `dropWhile` fails the predicate. -/
theorem dropWhile_head_false (p : Char → Bool) :
    ∀ (l : Str) (c : Char) (t : Str), l.dropWhile p = c :: t → p c = false := by
  intro l
  induction l with
  | nil => intro c t h; cases h
  | cons x xs ih =>
    intro c t h
    rw [List.dropWhile_cons] at h
    by_cases hx : p x
    · rw [if_pos hx] at h
      exact ih c t h
    · rw [if_neg hx] at h
      cases h
      exact Bool.eq_false_iff.mpr hx

/-- Inversion of the removal matcher: match ++ rest splits the input and the
match is a bullet plus maximal trailing whitespace. -/
theorem matchBulletR_some {l m r : Str} (h : matchBulletR l = some (m, r)) :
    l = m ++ r ∧ RemMatch m r := by
  unfold matchBulletR at h
  cases hx : matchBullet l with
  | none => rw [hx] at h; cases h
  | some p =>
    obtain ⟨m0, r0⟩ := p
    rw [hx] at h
    dsimp only at h
    cases h
    obtain ⟨ws, body, hm, hl, h1, h2, h3⟩ := matchBullet_some hx
    constructor
    · rw [hl]
      conv_lhs => rw [← List.takeWhile_append_dropWhile (p := isJsSpace) (l := r0)]
      simp
    · refine ⟨m0, r0.takeWhile isJsSpace, rfl, ⟨ws, body, hm, h1, h2, h3⟩,
        List.all_takeWhile .., ?_⟩
      intro c t hct
      exact dropWhile_head_false isJsSpace r0 c t hct

/-- The bullet matcher consumes at least one character. -/
theorem matchBullet_consumes {l m r : Str} (h : matchBullet l = some (m, r)) :
    r.length < l.length := by
  obtain ⟨ws, body, hm, hl, _, _, _⟩ := matchBullet_some h
  subst hl
  subst hm
  simp [mkBullet, liOpen, label, liClose]
  omega

/-- The removal matcher consumes at least one character. -/
theorem matchBulletR_consumes {l m r : Str} (h : matchBulletR l = some (m, r)) :
    r.length < l.length := by
  unfold matchBulletR at h
  cases hx : matchBullet l with
  | none => rw [hx] at h; cases h
  | some p =>
    obtain ⟨m0, r0⟩ := p
    rw [hx] at h
    dsimp only at h
    cases h
    have h1 := matchBullet_consumes hx
    have h2 : (r0.dropWhile isJsSpace).length ≤ r0.length :=
      (List.dropWhile_suffix isJsSpace).length_le
    omega

/-- One scanner step on a match. -/
theorem replaceScanGo_hit (mf : Str → Option (Str × Str)) (tmpl : Str)
    (groups : Str → List Str) {l m r : Str} (n : Nat) (b : Str) (h : mf l = some (m, r)) :
    replaceScanGo mf tmpl groups (n + 1) b l =
      jsSubst m b r (groups m) tmpl ++ replaceScanGo mf tmpl groups n (b ++ m) r := by
  rw [replaceScanGo.eq_def]
  dsimp only
  rw [h]

/-- One scanner step on a failing position. -/
theorem replaceScanGo_skip (mf : Str → Option (Str × Str)) (tmpl : Str)
    (groups : Str → List Str) {c : Char} {t : Str} (n : Nat) (b : Str)
    (h : mf (c :: t) = none) :
    replaceScanGo mf tmpl groups (n + 1) b (c :: t) =
      c :: replaceScanGo mf tmpl groups n (b ++ [c]) t := by
  rw [replaceScanGo.eq_def]
  dsimp only
  rw [h]

/-- The scanner result does not depend on the fuel once it exceeds the input
length, for matchers that consume input. -/
theorem replaceScanGo_fuel (mf : Str → Option (Str × Str)) (tmpl : Str)
    (groups : Str → List Str)
    (hcons : ∀ l m r, mf l = some (m, r) → r.length < l.length) :
    ∀ (n n' : Nat) (b : Str) (l : Str), l.length < n → l.length < n' →
      replaceScanGo mf tmpl groups n b l = replaceScanGo mf tmpl groups n' b l := by
  intro n
  induction n with
  | zero => intro n' b l h1 _; omega
  | succ n ih =>
    intro n' b l h1 h2
    cases n' with
    | zero => omega
    | succ n2 =>
      cases hm : mf l with
      | some p =>
        obtain ⟨m, r⟩ := p
        rw [replaceScanGo_hit mf tmpl groups n b hm, replaceScanGo_hit mf tmpl groups n2 b hm]
        have hr := hcons l m r hm
        rw [ih n2 (b ++ m) r (by omega) (by omega)]
      | none =>
        cases l with
        | nil => rw [replaceScanGo, hm, replaceScanGo, hm]
        | cons c t =>
          rw [replaceScanGo_skip mf tmpl groups n b hm,
            replaceScanGo_skip mf tmpl groups n2 b hm]
          have : t.length < n := by simpa using h1
          rw [ih n2 (b ++ [c]) t this (by simpa using h2)]

/-- A scanner over a region of all-failing positions is the identity. -/
theorem replaceScanGo_id (mf : Str → Option (Str × Str)) (tmpl : Str)
    (groups : Str → List Str) :
    ∀ (l : Str), (∀ p, p ≤ l.length → mf (l.drop p) = none) →
      ∀ (n : Nat) (b : Str), l.length < n → replaceScanGo mf tmpl groups n b l = l := by
  intro l
  induction l with
  | nil =>
    intro hfail n b hn
    cases n with
    | zero => rfl
    | succ k =>
      rw [replaceScanGo]
      have h0 : mf [] = none := by simpa using hfail 0 (by simp)
      rw [h0]
  | cons c t ih =>
    intro hfail n b hn
    cases n with
    | zero => omega
    | succ k =>
      have h0 : mf (c :: t) = none := by simpa using hfail 0 (by simp)
      rw [replaceScanGo_skip mf tmpl groups k b h0]
      have ht : ∀ p, p ≤ t.length → mf (t.drop p) = none := by
        intro p hp
        have := hfail (p + 1) (by simpa using Nat.succ_le_succ hp)
        simpa using this
      rw [ih ht k (b ++ [c]) (by simpa using hn)]

/-- The scanner copies a region of failing positions verbatim and continues
after it. -/
theorem replaceScanGo_append_skip (mf : Str → Option (Str × Str)) (tmpl : Str)
    (groups : Str → List Str) :
    ∀ (R z : Str), (∀ p, p < R.length → mf (R.drop p ++ z) = none) →
      ∀ (n : Nat) (b : Str), R.length + z.length < n →
        replaceScanGo mf tmpl groups n b (R ++ z)
          = R ++ replaceScanGo mf tmpl groups (n - R.length) (b ++ R) z := by
  intro R
  induction R with
  | nil =>
    intro z _ n b _
    simp
  | cons c R' ih =>
    intro z hfail n b hn
    cases n with
    | zero => omega
    | succ k =>
      have h0 : mf (c :: (R' ++ z)) = none := by simpa using hfail 0 (by simp)
      rw [show (c :: R') ++ z = c :: (R' ++ z) by simp,
        replaceScanGo_skip mf tmpl groups k b h0]
      have hf' : ∀ p, p < R'.length → mf (R'.drop p ++ z) = none := by
        intro p hp
        have := hfail (p + 1) (by simpa using Nat.succ_lt_succ hp)
        simpa using this
      rw [ih z hf' k (b ++ [c]) (by simp at hn ⊢; omega)]
      simp

/-- Soundness of the removal scan for the declarative removal frame. -/
theorem removalFrame_of_scan :
    ∀ (n : Nat) (b l : Str), l.length < n →
      RemovalFrame l (replaceScanGo matchBulletR [] (fun _ => []) n b l) := by
  intro n
  induction n with
  | zero => intro b l h; omega
  | succ n ih =>
    intro b l h
    cases hm : matchBulletR l with
    | some p =>
      obtain ⟨m, r⟩ := p
      rw [replaceScanGo_hit matchBulletR [] (fun _ => []) n b hm]
      obtain ⟨hl, hrm⟩ := matchBulletR_some hm
      have hr := matchBulletR_consumes hm
      have hframe := ih (b ++ m) r (by omega)
      rw [hl]
      show RemovalFrame (m ++ r) (jsSubst m b r [] [] ++ _)
      exact RemovalFrame.drop hrm hframe
    | none =>
      cases l with
      | nil =>
        have : replaceScanGo matchBulletR [] (fun _ => []) (n + 1) b [] = [] := by
          rw [replaceScanGo.eq_def]
          dsimp only
          rw [hm]
        rw [this]
        exact RemovalFrame.nil
      | cons c t =>
        rw [replaceScanGo_skip matchBulletR [] (fun _ => []) n b hm]
        exact RemovalFrame.keep
          (not_bulletAt_of_matchBullet_none (matchBulletR_none_iff.mp hm))
          (ih (b ++ [c]) t (by simpa using h))

/-- Soundness of the replacement scan for the declarative replacement
frame. -/
theorem replaceFrame_of_scan (tmpl : Str) (groups : Str → List Str) :
    ∀ (n : Nat) (b l : Str), l.length < n →
      ReplaceFrame l (replaceScanGo matchBullet tmpl groups n b l) := by
  intro n
  induction n with
  | zero => intro b l h; omega
  | succ n ih =>
    intro b l h
    cases hm : matchBullet l with
    | some p =>
      obtain ⟨m, r⟩ := p
      rw [replaceScanGo_hit matchBullet tmpl groups n b hm]
      obtain ⟨ws, body, hmk, hl, h1, h2, h3⟩ := matchBullet_some hm
      have hr := matchBullet_consumes hm
      have hframe := ih (b ++ m) r (by omega)
      rw [hl]
      exact ReplaceFrame.hit _ ⟨ws, body, hmk, h1, h2, h3⟩ hframe
    | none =>
      cases l with
      | nil =>
        have : replaceScanGo matchBullet tmpl groups (n + 1) b [] = [] := by
          rw [replaceScanGo.eq_def]
          dsimp only
          rw [hm]
        rw [this]
        exact ReplaceFrame.nil
      | cons c t =>
        rw [replaceScanGo_skip matchBullet tmpl groups n b hm]
        exact ReplaceFrame.keep (not_bulletAt_of_matchBullet_none hm)
          (ih (b ++ [c]) t (by simpa using h))

/-- Soundness of the insertion scan for the insertion frame, for templates
whose substitution re-emits the matched `<ul>` first (as `$1...` does). -/
theorem insertFrame_of_scan (tmpl : Str)
    (hsub : ∀ b r, ∃ ins, jsSubst ulOpen b r [ulOpen] tmpl = ulOpen ++ ins) :
    ∀ (l b : Str), InsertFrame l (insertScanGo tmpl b l) := by
  intro l
  induction l with
  | nil =>
    intro b
    exact Or.inr ⟨rfl, rfl⟩
  | cons c t ih =>
    intro b
    by_cases hp : ulOpen.isPrefixOf (c :: t)
    · obtain ⟨t2, ht2⟩ := List.isPrefixOf_iff_prefix.mp hp
      have hd : (c :: t).drop 4 = t2 := by
        rw [← ht2]
        exact List.drop_left' (by decide)
      rw [insertScanGo, if_pos hp, hd]
      obtain ⟨ins, hins⟩ := hsub b t2
      refine Or.inl ⟨[], t2, ins, ?_, by decide, ?_⟩
      · rw [← ht2]
        simp
      · rw [hins]
        simp
    · rw [insertScanGo, if_neg hp]
      rcases ih (b ++ [c]) with ⟨pre, post, ins, hh, hc, ho⟩ | ⟨hc, ho⟩
      · refine Or.inl ⟨c :: pre, post, ins, by simp [hh], ?_, by simp [ho]⟩
        have hnp : ulOpen.isPrefixOf (c :: pre) = false := by
          cases hx : ulOpen.isPrefixOf (c :: pre)
          · rfl
          · exfalso
            apply hp
            rw [List.isPrefixOf_iff_prefix] at hx ⊢
            calc ulOpen <+: c :: pre := hx
              _ <+: (c :: pre) ++ (ulOpen ++ post) := List.prefix_append ..
              _ = c :: t := by simp [hh]
        simp [containsSeq, hnp, hc]
      · refine Or.inr ⟨?_, by simp [ho]⟩
        have hnp : ulOpen.isPrefixOf (c :: t) = false := Bool.eq_false_iff.mpr hp
        simp [containsSeq, hnp, hc]

/-- The insertion template `$1\n  ...` re-emits the captured `<ul>` first. -/
theorem jsSubst_insert_template (m b a : Str) (X : Str) :
    jsSubst m b a [ulOpen] ("$1\n  ".data ++ X)
      = ulOpen ++ jsSubst m b a [ulOpen] ('\n' :: ' ' :: ' ' :: X) := rfl

/-- C3 (amended): framing of one `patch` call.  In the removal branch the
output deletes exactly removal-pattern matches (each a labeled list item
**plus its trailing whitespace**); in the replacement branch exactly the
matched labeled list items are replaced; in the insertion branch material is
inserted directly after the first `<ul>` (or nothing happens); every byte
outside those regions is copied verbatim. -/
theorem patch_frame_preservation (html s : Str) :
    PatchFrame html s (updateVariantsBulletPoint html s) := by
  unfold PatchFrame updateVariantsBulletPoint
  by_cases h1 : sentinelSummary s
  · simp only [h1, if_true]
    exact removalFrame_of_scan (html.length + 1) [] html (by omega)
  · simp only [h1, if_false, Bool.false_eq_true]
    by_cases h2 : containsSeq label html
    · simp only [h2, if_true]
      exact replaceFrame_of_scan _ _ (html.length + 1) [] html (by omega)
    · simp only [h2, if_false, Bool.false_eq_true]
      exact insertFrame_of_scan _
        (fun b r => ⟨_, jsSubst_insert_template ulOpen b r (newVariantsBullet s)⟩) html []

/-- Counterexample to C3 as stated: removing the variants bullet also deletes
the whitespace that follows its `</li>`, a byte outside any
variants-labeled list item (the space between the two items is gone). -/
theorem patch_outside_bytes_altered_cex :
    updateVariantsBulletPoint
        "<ul><li>\n<strong>Available Variants:</strong> Size: 2 mm</li> <li>A</li></ul>".data
        "Standard".data
      = "<ul><li>A</li></ul>".data ∧
    updateVariantsBulletPoint
        "<ul><li>\n<strong>Available Variants:</strong> Size: 2 mm</li> <li>A</li></ul>".data
        "Standard".data
      ≠ "<ul> <li>A</li></ul>".data := by
  constructor
  · decide
  · decide

/-- C8: with a sentinel, empty or whitespace-only summary the patcher removes
every list item matching the bullet pattern (whitespace and newlines between
`<li>` and the label are tolerated): the output is the input minus
removal-pattern matches, every kept position starts no bullet match, and a
document with no matching bullet anywhere is returned unchanged. -/
theorem patch_sentinel_removes_all (html s : Str) (hs : sentinelSummary s = true) :
    RemovalFrame html (updateVariantsBulletPoint html s) ∧
    ((∀ p, p ≤ html.length → ¬ BulletAt (html.drop p)) →
      updateVariantsBulletPoint html s = html) := by
  have hupd : updateVariantsBulletPoint html s = removeAllBullets html := by
    unfold updateVariantsBulletPoint
    rw [if_pos hs]
  constructor
  · rw [hupd]
    exact removalFrame_of_scan (html.length + 1) [] html (by omega)
  · intro hnone
    rw [hupd]
    unfold removeAllBullets
    apply replaceScanGo_id
    · intro p hp
      cases hx : matchBulletR (html.drop p) with
      | none => rfl
      | some q =>
        obtain ⟨m, r⟩ := q
        obtain ⟨hl, m0, trail, hm, hbm, _, _⟩ := matchBulletR_some hx
        exfalso
        apply hnone p hp
        exact ⟨m0, trail ++ r, by rw [hl, hm]; simp, hbm⟩
    · omega

/-- Witness for C8 on a concrete document with one matching bullet and one
ordinary item. -/
theorem patch_sentinel_removes_all_witness :
    sentinelSummary "Standard".data = true ∧
    (RemovalFrame "<ul><li>\n<strong>Available Variants:</strong> a</li><li>B</li></ul>".data
      (updateVariantsBulletPoint
        "<ul><li>\n<strong>Available Variants:</strong> a</li><li>B</li></ul>".data
        "Standard".data) ∧
    ((∀ p, p ≤ ("<ul><li>\n<strong>Available Variants:</strong> a</li><li>B</li></ul>".data : Str).length →
        ¬ BulletAt (("<ul><li>\n<strong>Available Variants:</strong> a</li><li>B</li></ul>".data : Str).drop p)) →
      updateVariantsBulletPoint
        "<ul><li>\n<strong>Available Variants:</strong> a</li><li>B</li></ul>".data
        "Standard".data
      = "<ul><li>\n<strong>Available Variants:</strong> a</li><li>B</li></ul>".data)) :=
  ⟨by decide, patch_sentinel_removes_all _ _ (by decide)⟩

/-- Positions of `<` in the label that could continue as `<l` do not exist
(except position 0, which starts `<s`). -/
theorem label_no_lt_l : ∀ j, j < 36 → 0 < j →
    ¬ (label.get? j = some '<' ∧ (j + 1 = 36 ∨ label.get? (j + 1) = some 'l')) := by
  decide

/-- No character of `<li>` after position 0 is `<`. -/
theorem liOpen_no_lt : ∀ j, j < 4 → 0 < j → liOpen.get? j ≠ some '<' := by
  decide

/-- No bullet match can begin strictly inside a label-free region that is
followed immediately by text starting `<l`. -/
theorem matchBullet_fail_gap (y z2 : Str) (hy : y ≠ [])
    (hl : containsSeq label y = false) :
    matchBullet (y ++ ('<' :: 'l' :: z2)) = none := by
  cases hx : matchBullet (y ++ ('<' :: 'l' :: z2)) with
  | none => rfl
  | some p =>
    exfalso
    obtain ⟨m, r⟩ := p
    obtain ⟨ws, body, hm, hsplit, hws, _, _⟩ := matchBullet_some hx
    have heq : y ++ ('<' :: 'l' :: z2)
        = (liOpen ++ ws) ++ (label ++ (body ++ (liClose ++ r))) := by
      rw [hsplit, hm]
      simp [mkBullet]
    have hk : (liOpen ++ ws).length = 4 + ws.length := by
      simp [liOpen]
      omega
    have hlen36 : label.length = 36 := by decide
    have hz0 : (y ++ ('<' :: 'l' :: z2)).get? y.length = some '<' := by
      rw [List.get?_append_right (le_refl _), Nat.sub_self]
      rfl
    have hz1 : (y ++ ('<' :: 'l' :: z2)).get? (y.length + 1) = some 'l' := by
      rw [List.get?_append_right (by omega), Nat.add_sub_cancel_left]
      rfl
    rcases Nat.lt_or_ge y.length (liOpen ++ ws).length with hcase | hcase
    · have hu0 : (y ++ ('<' :: 'l' :: z2)).get? y.length = (liOpen ++ ws).get? y.length := by
        rw [heq, List.get?_append hcase]
      rw [hz0] at hu0
      rcases Nat.lt_or_ge y.length 4 with h4 | h4
      · have h4' : y.length < liOpen.length := by simpa [liOpen] using h4
        rw [List.get?_append h4'] at hu0
        have hpos : 0 < y.length := List.length_pos.mpr hy
        exact liOpen_no_lt y.length h4 hpos hu0.symm
      · have h4' : liOpen.length ≤ y.length := by simpa [liOpen] using h4
        rw [List.get?_append_right h4'] at hu0
        have hmem : '<' ∈ ws := List.get?_mem hu0.symm
        have := List.all_eq_true.mp hws '<' hmem
        simp [isJsSpace] at this
    · rcases Nat.lt_or_ge y.length ((liOpen ++ ws).length + 36) with hcase2 | hcase2
      · have hj36 : y.length - (liOpen ++ ws).length < 36 := by omega
        have hlab0 : label.get? (y.length - (liOpen ++ ws).length) = some '<' := by
          rw [← hz0, heq, List.get?_append_right hcase, List.get?_append (by omega)]
        by_cases hj35 : y.length - (liOpen ++ ws).length + 1 = 36
        · by_cases hj0 : 0 < y.length - (liOpen ++ ws).length
          · exact label_no_lt_l _ hj36 hj0 ⟨hlab0, Or.inl hj35⟩
          · omega
        · have hlab1 : label.get? (y.length - (liOpen ++ ws).length + 1) = some 'l' := by
            rw [← hz1, heq, List.get?_append_right (by omega),
              List.get?_append (by omega)]
            congr 1
            omega
          by_cases hj0 : 0 < y.length - (liOpen ++ ws).length
          · exact label_no_lt_l _ hj36 hj0 ⟨hlab0, Or.inr hlab1⟩
          · have hj0' : y.length = (liOpen ++ ws).length := by omega
            rw [hj0', Nat.sub_self] at hlab1
            simp only [Nat.zero_add] at hlab1
            have : label.get? 1 = some 's' := by decide
            rw [this] at hlab1
            cases hlab1
      · have htake : y = (liOpen ++ ws)
            ++ (label ++ (body ++ (liClose ++ r)).take
                (y.length - (liOpen ++ ws).length - 36)) := by
          have h1 : (y ++ ('<' :: 'l' :: z2)).take y.length = y := List.take_left ..
          rw [heq] at h1
          rw [List.take_append_eq_append_take,
            List.take_of_length_le (l := liOpen ++ ws) (by omega),
            List.take_append_eq_append_take,
            List.take_of_length_le (l := label) (by omega), hlen36] at h1
          exact h1.symm
        have : containsSeq label y = true := by
          rw [containsSeq_iff]
          refine ⟨liOpen ++ ws,
            (body ++ (liClose ++ r)).take (y.length - (liOpen ++ ws).length - 36), ?_⟩
          conv_rhs => rw [htake]
          simp only [List.append_assoc]
        rw [hl] at this
        cases this

/-- Substring-freeness is inherited by infixes. -/
theorem containsSeq_false_of_within {pat l l2 : Str} (h : containsSeq pat l = false)
    (hinf : l2 <:+: l) : containsSeq pat l2 = false := by
  cases hx : containsSeq pat l2 with
  | false => rfl
  | true =>
    have : containsSeq pat l = true :=
      (containsSeq_iff ..).mpr (((containsSeq_iff ..).mp hx).trans hinf)
    rw [h] at this
    cases this

/-- An infix of a concatenation lies in a part or straddles the boundary. -/
theorem infix_append_cases {l a b : Str} (h : l <:+: a ++ b) :
    l <:+: a ∨ l <:+: b ∨
      ∃ l1 l2, l = l1 ++ l2 ∧ l1 ≠ [] ∧ l2 ≠ [] ∧ l1 <:+ a ∧ l2 <+: b := by
  obtain ⟨st, tt, hst⟩ := h
  rcases le_or_lt (st.length + l.length) a.length with hc1 | hc1
  · left
    have h1 : (a ++ b).take a.length = a := List.take_left ..
    rw [← hst] at h1
    rw [show st ++ l ++ tt = st ++ (l ++ tt) by simp, List.take_append_eq_append_take,
      List.take_of_length_le (l := st) (by omega), List.take_append_eq_append_take,
      List.take_of_length_le (l := l) (by omega)] at h1
    exact ⟨st, tt.take (a.length - st.length - l.length), by rw [← h1]; simp⟩
  · rcases le_or_lt a.length st.length with hc2 | hc2
    · right; left
      have h1 : (a ++ b).drop a.length = b := List.drop_left ..
      rw [← hst, show st ++ l ++ tt = st ++ (l ++ tt) by simp,
        List.drop_append_eq_append_drop, Nat.sub_eq_zero_of_le hc2,
        List.drop_zero] at h1
      exact ⟨st.drop a.length, tt, by rw [← h1]; simp⟩
    · right; right
      have hk0 : 0 < a.length - st.length := by omega
      have hkl : a.length - st.length < l.length := by omega
      have ha : a = st ++ l.take (a.length - st.length) := by
        have h1 : (a ++ b).take a.length = a := List.take_left ..
        rw [← hst, show st ++ l ++ tt = st ++ (l ++ tt) by simp,
          List.take_append_eq_append_take, List.take_of_length_le (l := st) (by omega),
          List.take_append_eq_append_take,
          show a.length - st.length - l.length = 0 by omega,
          List.take_zero, List.append_nil] at h1
        exact h1.symm
      have hb : b = l.drop (a.length - st.length) ++ tt := by
        have h1 : (a ++ b).drop a.length = b := List.drop_left ..
        rw [← hst, show st ++ l ++ tt = st ++ (l ++ tt) by simp,
          List.drop_append_eq_append_drop, List.drop_append_eq_append_drop,
          Nat.sub_eq_zero_of_le (le_of_lt hkl)] at h1
        rw [List.drop_eq_nil_of_le (le_of_lt hc2), List.nil_append, List.drop_zero] at h1
        exact h1.symm
      refine ⟨l.take (a.length - st.length), l.drop (a.length - st.length), by simp,
        ?_, ?_, ⟨st, ha.symm⟩, ⟨tt, hb.symm⟩⟩
      · intro hx
        rcases List.take_eq_nil_iff.mp hx with h | h
        · omega
        · rw [h] at hkl
          simp at hkl
      · intro hx
        have : l.length ≤ a.length - st.length := by
          have := congrArg List.length hx
          simp at this
          omega
        omega

/-- On a `$`-free template the ECMAScript substitution is the identity. -/
theorem jsSubst_no_dollar (m b a : Str) (g : List Str) :
    ∀ (t : Str), t.all (fun c => c ≠ '$') = true → jsSubst m b a g t = t := by
  intro t
  induction t with
  | nil => intro _; rfl
  | cons c rest ih =>
    intro h
    rw [List.all_cons, Bool.and_eq_true] at h
    have hc : c ≠ '$' := by simpa using h.1
    cases rest with
    | nil => rfl
    | cons d t2 =>
      rw [jsSubst.eq_def]
      dsimp only
      rw [if_pos hc, ih h.2]

/-- The replacement bullet template contains no `$` when the summary has
none. -/
theorem newVariantsBullet_no_dollar {s : Str} (h : s.all (fun c => c ≠ '$') = true) :
    (newVariantsBullet s).all (fun c => c ≠ '$') = true := by
  simp only [newVariantsBullet, List.all_append, Bool.and_eq_true]
  exact ⟨⟨by decide, h⟩, by decide⟩

/-- The replacement bullet is itself a well-shaped bullet: whitespace run
`"\n"`, body `" " ++ s`. -/
theorem newVariantsBullet_eq_mkBullet (s : Str) :
    newVariantsBullet s = mkBullet ['\n'] (' ' :: s) := by
  have h : "<li>\n<strong>Available Variants:</strong> ".data
      = ((liOpen ++ ['\n']) ++ label) ++ [' '] := by decide
  unfold newVariantsBullet mkBullet
  rw [h, show "</li>".data = liClose from rfl]
  simp only [List.append_assoc, List.singleton_append, List.cons_append, List.nil_append]

/-- Length of an assembled bullet. -/
theorem mkBullet_length (ws body : Str) :
    (mkBullet ws body).length = 45 + ws.length + body.length := by
  have h1 : liOpen.length = 4 := by decide
  have h2 : label.length = 36 := by decide
  have h3 : liClose.length = 5 := by decide
  simp only [mkBullet, List.length_append, h1, h2, h3]
  omega

/-- Unpacking segment well-formedness. -/
theorem segOK_spec {p : Seg} (h : segOK p = true) :
    containsSeq label p.1 = false ∧ p.2.1.all isJsSpace = true ∧
      p.2.2.all (fun c => !isLineTerm c) = true ∧ containsSeq liClose p.2.2 = false := by
  unfold segOK at h
  simp only [Bool.and_eq_true, Bool.not_eq_true'] at h
  exact ⟨h.1.1.1, h.1.1.2, h.1.2, h.2⟩

/-- Prepending a space preserves `</li>`-freeness. -/
theorem liClose_free_cons_space {s : Str} (h : containsSeq liClose s = false) :
    containsSeq liClose (' ' :: s) = false := by
  cases hx : containsSeq liClose (' ' :: s) with
  | false => rfl
  | true =>
    exfalso
    have hinf := (containsSeq_iff ..).mp hx
    rcases List.infix_cons_iff.mp hinf with hpre | hinf2
    · obtain ⟨t, ht⟩ := hpre
      injection ht with h1 h2
      exact absurd h1 (by decide)
    · rw [(containsSeq_iff ..).mpr hinf2] at h
      cases h

/-- A well-behaved summary makes a well-formed replacement segment over any
label-free gap. -/
theorem segOK_repl {g s : Str} (hg : containsSeq label g = false)
    (hn : niceSummary s = true) : segOK (g, ['\n'], ' ' :: s) = true := by
  unfold niceSummary at hn
  simp only [Bool.and_eq_true, Bool.not_eq_true'] at hn
  unfold segOK
  dsimp only
  simp only [Bool.and_eq_true, Bool.not_eq_true']
  refine ⟨⟨⟨hg, by decide⟩, ?_⟩, liClose_free_cons_space hn.2⟩
  simp only [List.all_cons, Bool.and_eq_true]
  exact ⟨by decide, hn.1.2⟩

/-- No proper tail of the label is a prefix of the inserted `<ul>` glue. -/
theorem label_drop_not_prefix_uls :
    ∀ j, j < 36 → 0 < j → (label.drop j).isPrefixOf "<ul>\n  ".data = false := by
  decide

/-- Appending the `<ul>` glue to a label-free string stays label-free. -/
theorem label_free_append_uls {R : Str} (hR : containsSeq label R = false) :
    containsSeq label (R ++ "<ul>\n  ".data) = false := by
  cases hx : containsSeq label (R ++ "<ul>\n  ".data) with
  | false => rfl
  | true =>
    exfalso
    have hinf := (containsSeq_iff ..).mp hx
    rcases infix_append_cases hinf with h | h | ⟨l1, l2, hsplit, h1ne, h2ne, hsuf, hpre⟩
    · rw [(containsSeq_iff ..).mpr h] at hR
      cases hR
    · have h2 : containsSeq label "<ul>\n  ".data = false := by decide
      rw [(containsSeq_iff ..).mpr h] at h2
      cases h2
    · have h36 : label.length = 36 := by decide
      have hlen : l1.length + l2.length = 36 := by
        have := congrArg List.length hsplit
        simp at this
        omega
      have hl2 : l2 = label.drop l1.length := by
        rw [hsplit, List.drop_left]
      have h2pos : 0 < l2.length := List.length_pos.mpr h2ne
      have h1pos : 0 < l1.length := List.length_pos.mpr h1ne
      have hnp := label_drop_not_prefix_uls l1.length (by omega) h1pos
      rw [← hl2] at hnp
      rw [List.isPrefixOf_iff_prefix.mpr hpre] at hnp
      cases hnp

/-- A document assembled from at least one segment contains the label. -/
theorem label_in_joinSegs (p : Seg) (segs : List Seg) (g2 : Str) :
    containsSeq label (joinSegs (p :: segs) ++ g2) = true := by
  rw [containsSeq_iff]
  refine ⟨p.1 ++ liOpen ++ p.2.1, p.2.2 ++ (liClose ++ (joinSegs segs ++ g2)), ?_⟩
  simp [joinSegs, mkBullet]

/-- A bullet (with anything after it) starts with `<l`. -/
theorem mkBullet_cons (ws body X : Str) :
    mkBullet ws body ++ X
      = '<' :: 'l' :: ('i' :: '>' :: (ws ++ (label ++ (body ++ (liClose ++ X))))) := by
  simp only [mkBullet, List.append_assoc]
  rfl

/-- The global replace over a structured document substitutes exactly the
bullets, leaving every gap intact, for any `$`-free replacement string. -/
theorem replaceAll_segs (B : Str) (hB : B.all (fun c => c ≠ '$') = true) :
    ∀ (segs : List Seg) (glast : Str), (∀ p ∈ segs, segOK p = true) →
      containsSeq label glast = false →
      ∀ (n : Nat) (b : Str), (joinSegs segs ++ glast).length < n →
        replaceScanGo matchBullet B (fun _ => []) n b (joinSegs segs ++ glast)
          = joinRepl B segs ++ glast := by
  intro segs
  induction segs with
  | nil =>
    intro glast _ hg n b hn
    rw [show joinSegs [] = [] from rfl, List.nil_append] at hn ⊢
    rw [show joinRepl B [] = [] from rfl, List.nil_append]
    refine replaceScanGo_id matchBullet B (fun _ => []) glast ?_ n b hn
    intro q _
    exact matchBullet_none_of_no_label
      (containsSeq_false_of_within hg (List.drop_suffix q glast).isInfix)
  | cons p segs ih =>
    obtain ⟨g, ws, body⟩ := p
    intro glast hsegs hg n b hn
    have hok := segOK_spec (hsegs (g, ws, body) (List.mem_cons_self ..))
    dsimp only at hok
    obtain ⟨hγ, hws, hb1, hb2⟩ := hok
    have heq : joinSegs ((g, ws, body) :: segs) ++ glast
        = g ++ (mkBullet ws body ++ (joinSegs segs ++ glast)) := by
      simp [joinSegs]
    have hlen2 : g.length + (mkBullet ws body ++ (joinSegs segs ++ glast)).length < n := by
      have h0 := hn
      rw [heq] at h0
      simp only [List.length_append] at h0 ⊢
      omega
    have hfail : ∀ q, q < g.length →
        matchBullet (g.drop q ++ (mkBullet ws body ++ (joinSegs segs ++ glast))) = none := by
      intro q hq
      rw [mkBullet_cons]
      apply matchBullet_fail_gap
      · intro hnil
        have := congrArg List.length hnil
        simp at this
        omega
      · exact containsSeq_false_of_within hγ (List.drop_suffix q g).isInfix
    have hmatch : matchBullet (mkBullet ws body ++ (joinSegs segs ++ glast))
        = some (mkBullet ws body, joinSegs segs ++ glast) :=
      matchBullet_complete _ hws hb1 hb2
    have hstep := replaceScanGo_append_skip matchBullet B (fun _ => []) g
      (mkBullet ws body ++ (joinSegs segs ++ glast)) hfail n b hlen2
    have hmkpos : 0 < (mkBullet ws body).length := by
      rw [mkBullet_length]
      omega
    have hfuel := replaceScanGo_fuel matchBullet B (fun _ => [])
      (fun l m r h => matchBullet_consumes h) (n - g.length)
      ((mkBullet ws body ++ (joinSegs segs ++ glast)).length + 1) (b ++ g)
      (mkBullet ws body ++ (joinSegs segs ++ glast)) (by omega) (by omega)
    have hhit := replaceScanGo_hit matchBullet B (fun _ => [])
      ((joinSegs segs ++ glast).length + (mkBullet ws body).length) (b ++ g) hmatch
    have hsubB : jsSubst (mkBullet ws body) (b ++ g) (joinSegs segs ++ glast) [] B = B :=
      jsSubst_no_dollar _ _ _ _ B hB
    have hrest := ih glast (fun q hq => hsegs q (List.mem_cons_of_mem _ hq)) hg
      ((joinSegs segs ++ glast).length + (mkBullet ws body).length)
      ((b ++ g) ++ mkBullet ws body) (by omega)
    rw [heq, hstep, hfuel,
      show (mkBullet ws body ++ (joinSegs segs ++ glast)).length + 1
          = ((joinSegs segs ++ glast).length + (mkBullet ws body).length) + 1
        from by simp [Nat.add_comm],
      hhit, hsubB, hrest]
    simp [joinRepl]

/-- One `patch` call on a structured document with a non-sentinel, `$`-free
summary replaces every bullet in place and touches nothing else. -/
theorem update_structured (s : Str) (segs : List Seg) (glast : Str)
    (hs : sentinelSummary s = false) (hd : s.all (fun c => c ≠ '$') = true)
    (hsegs : ∀ p ∈ segs, segOK p = true) (hne : segs ≠ [])
    (hg : containsSeq label glast = false) :
    updateVariantsBulletPoint (joinSegs segs ++ glast) s
      = joinRepl (newVariantsBullet s) segs ++ glast := by
  obtain ⟨p, rest, rfl⟩ : ∃ p rest, segs = p :: rest := by
    cases segs with
    | nil => exact absurd rfl hne
    | cons a l => exact ⟨a, l, rfl⟩
  unfold updateVariantsBulletPoint
  rw [if_neg (by simp [hs]), if_pos (label_in_joinSegs p rest glast)]
  unfold replaceAllBullets
  exact replaceAll_segs (newVariantsBullet s) (newVariantsBullet_no_dollar hd)
    (p :: rest) glast hsegs hg _ [] (Nat.lt_succ_self _)

/-- Without `<ul>` anywhere the insertion scan is the identity. -/
theorem insertScanGo_no_ul (tmpl : Str) :
    ∀ (l b : Str), containsSeq ulOpen l = false → insertScanGo tmpl b l = l := by
  intro l
  induction l with
  | nil => intro b _; rfl
  | cons c t ih =>
    intro b h
    rw [containsSeq] at h
    simp only [Bool.or_eq_false_iff] at h
    rw [insertScanGo, if_neg (by simp [h.1]), ih (b ++ [c]) h.2]

/-- The insertion scan substitutes at the first `<ul>` occurrence and copies
the prefix before it verbatim. -/
theorem insertScanGo_split (tmpl : Str) :
    ∀ (l b : Str), containsSeq ulOpen l = true →
      ∃ R post, l = R ++ (ulOpen ++ post) ∧
        insertScanGo tmpl b l
          = R ++ (jsSubst ulOpen (b ++ R) post [ulOpen] tmpl ++ post) := by
  intro l
  induction l with
  | nil => intro b h; cases h
  | cons c t ih =>
    intro b h
    by_cases hp : ulOpen.isPrefixOf (c :: t) = true
    · obtain ⟨post, hpost⟩ : ∃ post, c :: t = ulOpen ++ post := by
        obtain ⟨post, hp2⟩ := List.isPrefixOf_iff_prefix.mp hp
        exact ⟨post, hp2.symm⟩
      refine ⟨[], post, by simpa using hpost, ?_⟩
      rw [insertScanGo, if_pos hp]
      have hdrop : (c :: t).drop 4 = post := by
        rw [hpost, show (4 : Nat) = ulOpen.length from rfl, List.drop_left]
      rw [hdrop]
      simp
    · have hpf : ulOpen.isPrefixOf (c :: t) = false := by
        cases hx : ulOpen.isPrefixOf (c :: t) with
        | false => rfl
        | true => exact absurd hx hp
      have ht : containsSeq ulOpen t = true := by
        rw [containsSeq, hpf] at h
        simpa using h
      obtain ⟨R, post, hsplit, hout⟩ := ih (b ++ [c]) ht
      refine ⟨c :: R, post, by simp [hsplit], ?_⟩
      rw [insertScanGo, if_neg (by simp [hpf]), hout]
      simp

/-- C1 (amended): on a document assembled as label-free gaps around two or
more well-formed variants bullets, one `patch` call with a non-sentinel,
`$`-free summary replaces **each** bullet in place with one copy of the new
bullet; duplicates are preserved, not collapsed into a single bullet. -/
theorem patch_replaces_each_bullet (s : Str) (segs : List Seg) (glast : Str)
    (hs : sentinelSummary s = false) (hd : s.all (fun c => c ≠ '$') = true)
    (hsegs : ∀ p ∈ segs, segOK p = true) (h2 : 2 ≤ segs.length)
    (hg : containsSeq label glast = false) :
    updateVariantsBulletPoint (joinSegs segs ++ glast) s
      = joinRepl (newVariantsBullet s) segs ++ glast :=
  update_structured s segs glast hs hd hsegs
    (by rintro rfl; simp at h2) hg

theorem patch_replaces_each_bullet_witness :
    updateVariantsBulletPoint
        (joinSegs [("<ul>".data, ['\n'], " Size: 2 mm".data), ([], [], " b".data)]
          ++ "</ul>".data) "Size: 5 mm".data
      = joinRepl (newVariantsBullet "Size: 5 mm".data)
          [("<ul>".data, ['\n'], " Size: 2 mm".data), ([], [], " b".data)]
        ++ "</ul>".data :=
  patch_replaces_each_bullet "Size: 5 mm".data
    [("<ul>".data, ['\n'], " Size: 2 mm".data), ([], [], " b".data)] "</ul>".data
    (by decide) (by decide) (by decide) (by decide) (by decide)

set_option maxRecDepth 4000 in
/-- Counterexample to C1 as stated: a document with two variants bullets and
the ordinary summary `"Size: 5 mm"` still has two labeled bullets after one
`patch` call — the global replace substitutes each match separately and does
not collapse duplicates to one. -/
theorem patch_duplicates_not_collapsed_cex :
    sentinelSummary "Size: 5 mm".data = false ∧
    countSeq label
        "<ul><li><strong>Available Variants:</strong> a</li><li><strong>Available Variants:</strong> b</li></ul>".data
      = 2 ∧
    countSeq label
        (updateVariantsBulletPoint
          "<ul><li><strong>Available Variants:</strong> a</li><li><strong>Available Variants:</strong> b</li></ul>".data
          "Size: 5 mm".data)
      = 2 := by
  refine ⟨by decide, by decide, by decide⟩

/-- C2 (amended): the patcher is idempotent on structured documents (label
occurrences only inside well-formed bullets, label-free final gap) for every
non-sentinel summary free of `$`, line terminators and `</li>`; with a
summary containing `</li>` idempotence fails (see the counterexample). -/
theorem patch_idempotent_structured (s : Str) (segs : List Seg) (glast : Str)
    (hs : sentinelSummary s = false) (hn : niceSummary s = true)
    (hsegs : ∀ p ∈ segs, segOK p = true)
    (hg : containsSeq label glast = false) :
    updateVariantsBulletPoint (updateVariantsBulletPoint (joinSegs segs ++ glast) s) s
      = updateVariantsBulletPoint (joinSegs segs ++ glast) s := by
  have hn2 := hn
  unfold niceSummary at hn2
  simp only [Bool.and_eq_true, Bool.not_eq_true'] at hn2
  have hd : s.all (fun c => c ≠ '$') = true := hn2.1.1
  cases segs with
  | nil =>
    rw [show joinSegs [] = [] from rfl, List.nil_append]
    by_cases hul : containsSeq ulOpen glast = true
    · obtain ⟨R, post, hgl, hout⟩ :=
        insertScanGo_split ("$1\n  ".data ++ newVariantsBullet s) glast [] hul
      have hRfree : containsSeq label R = false :=
        containsSeq_false_of_within hg (List.IsPrefix.isInfix ⟨ulOpen ++ post, hgl.symm⟩)
      have hpostfree : containsSeq label post = false :=
        containsSeq_false_of_within hg (List.IsSuffix.isInfix ⟨R ++ ulOpen, by rw [hgl]; simp⟩)
      have hsubst : jsSubst ulOpen ([] ++ R) post [ulOpen]
            ("$1\n  ".data ++ newVariantsBullet s)
          = ulOpen ++ ('\n' :: ' ' :: ' ' :: newVariantsBullet s) := by
        rw [jsSubst_insert_template]
        congr 1
        apply jsSubst_no_dollar
        simp only [List.all_cons, Bool.and_eq_true]
        exact ⟨by decide, by decide, by decide, newVariantsBullet_no_dollar hd⟩
      have hinner : updateVariantsBulletPoint glast s
          = joinSegs [(R ++ "<ul>\n  ".data, ['\n'], ' ' :: s)] ++ post := by
        unfold updateVariantsBulletPoint
        rw [if_neg (by simp [hs]), if_neg (by simp [hg])]
        unfold insertBullet
        rw [hout, hsubst]
        simp only [joinSegs, List.map_cons, List.map_nil, List.flatten_cons,
          List.flatten_nil, List.append_nil, ← newVariantsBullet_eq_mkBullet,
          List.append_assoc, List.cons_append]
        rfl
      have hsegOK : segOK (R ++ "<ul>\n  ".data, ['\n'], ' ' :: s) = true :=
        segOK_repl (label_free_append_uls hRfree) hn
      have houter := update_structured s [(R ++ "<ul>\n  ".data, ['\n'], ' ' :: s)] post hs hd
        (by
          intro q hq
          simp only [List.mem_singleton] at hq
          subst hq
          exact hsegOK)
        (by simp) hpostfree
      rw [hinner, houter]
      simp only [joinRepl, joinSegs, List.map_cons, List.map_nil, List.flatten_cons,
        List.flatten_nil, List.append_nil, ← newVariantsBullet_eq_mkBullet]
    · have hul2 : containsSeq ulOpen glast = false := by
        cases hx : containsSeq ulOpen glast with
        | false => rfl
        | true => exact absurd hx hul
      have hinner : updateVariantsBulletPoint glast s = glast := by
        unfold updateVariantsBulletPoint
        rw [if_neg (by simp [hs]), if_neg (by simp [hg])]
        unfold insertBullet
        exact insertScanGo_no_ul _ glast [] hul2
      rw [hinner, hinner]
  | cons p rest =>
    rw [update_structured s (p :: rest) glast hs hd hsegs (by simp) hg]
    have hJ : joinRepl (newVariantsBullet s) (p :: rest)
        = joinSegs ((p :: rest).map fun q => (q.1, ['\n'], ' ' :: s)) := by
      simp only [joinRepl, joinSegs, List.map_map]
      rfl
    rw [hJ]
    have hsegs2 : ∀ q ∈ (p :: rest).map (fun q => (q.1, ['\n'], ' ' :: s)),
        segOK q = true := by
      intro q hq
      simp only [List.mem_map] at hq
      obtain ⟨r, hr, rfl⟩ := hq
      exact segOK_repl (segOK_spec (hsegs r hr)).1 hn
    rw [update_structured s _ glast hs hd hsegs2 (by simp) hg, ← hJ]
    simp only [joinRepl, List.map_map]
    rfl

theorem patch_idempotent_structured_witness :
    updateVariantsBulletPoint
        (updateVariantsBulletPoint
          (joinSegs [("<ul>".data, ['\n'], " a".data)] ++ "</ul>".data) "5 mm".data)
        "5 mm".data
      = updateVariantsBulletPoint
          (joinSegs [("<ul>".data, ['\n'], " a".data)] ++ "</ul>".data) "5 mm".data :=
  patch_idempotent_structured "5 mm".data [("<ul>".data, ['\n'], " a".data)] "</ul>".data
    (by decide) (by decide) (by decide) (by decide)

set_option maxRecDepth 4000 in
/-- Counterexample to C2 as stated: with the summary `"a</li>b"` the inserted
bullet's body contains a premature `</li>`, so the second call's lazy pattern
matches a shorter bullet and appends a second copy — `patch` is not
idempotent for arbitrary summaries. -/
theorem patch_idempotence_fails_cex :
    updateVariantsBulletPoint
        (updateVariantsBulletPoint "<ul></ul>".data "a</li>b".data) "a</li>b".data
      ≠ updateVariantsBulletPoint "<ul></ul>".data "a</li>b".data := by
  decide
